import Mathlib

/-!
Shallow embedding of Botan's TLS extensions layer
(`src/lib/tls/tls_extensions.cpp`), together with the wire-reader
primitives it relies on, and proofs settling the frozen claims about
the extension container and the individual extension carriers.

Bytes are modelled as `Nat`; every value read from the wire is reduced
modulo the machine width of the C++ type that receives it (`% 256` for
`uint8_t`, `% 65536` for `uint16_t`), mirroring the integer semantics
of the source.  Fallible code returns `Except Err`.
-/

namespace BotanTLS

/-- TLS alert descriptions relevant to this layer. -/
inductive Alert where
  | decodeError
  | internalError
  deriving DecidableEq, Repr

/-- Error taxonomy of the source: `Decoding_Error`, `TLS_Exception(alert)`,
`Invalid_Argument`, `Invalid_State`. -/
inductive Err where
  | decodingError (msg : String)
  | tlsAlert (a : Alert) (msg : String)
  | invalidArgument (msg : String)
  | invalidState (msg : String)
  deriving DecidableEq, Repr

/-- A decode-kind failure: either a `Decoding_Error` or a
`TLS_Exception` carrying the `DECODE_ERROR` alert.  Both surface to
the peer as a fatal `DECODE_ERROR` alert. -/
def Err.isDecodeError : Err → Bool
  | .decodingError _ => true
  | .tlsAlert .decodeError _ => true
  | _ => false

/-- `Connection_Side`. -/
inductive Side where
  | client
  | server
  deriving DecidableEq, Repr

/-- The subset of `Handshake_Type` the extensions code can receive. -/
inductive HsType where
  | clientHello
  | serverHello
  | certificate
  | certificateRequest
  deriving DecidableEq, Repr

/-- `TLS_Data_Reader` cursor state: the not-yet-consumed bytes.

Modelled from the spec: `tls_reader.h` is not part of the sources, so
the reader is embedded from §4.A of the specification (length-prefixed
big-endian codecs with bounds checking; every primitive fails with a
decode error on truncation or out-of-bounds lengths). -/
structure Reader where
  data : List Nat
  deriving DecidableEq, Repr

namespace Reader

def remaining (rd : Reader) : Nat := rd.data.length

def hasRemaining (rd : Reader) : Bool := rd.data.length != 0

/-- `get_byte`: one byte, reduced to `uint8_t` range. -/
def getByte (rd : Reader) : Except Err (Nat × Reader) :=
  match rd.data with
  | [] => .error (.decodingError "Reader out of data")
  | b :: rest => .ok (b % 256, ⟨rest⟩)

/-- `get_uint16_t`: two bytes big-endian. -/
def getU16 (rd : Reader) : Except Err (Nat × Reader) :=
  match rd.data with
  | b0 :: b1 :: rest => .ok (256 * (b0 % 256) + b1 % 256, ⟨rest⟩)
  | _ => .error (.decodingError "Reader out of data")

/-- `get_fixed<uint8_t>(n)`: exactly `n` bytes. -/
def getFixed (rd : Reader) (n : Nat) : Except Err (List Nat × Reader) :=
  if n ≤ rd.data.length then
    .ok ((rd.data.take n).map (· % 256), ⟨rd.data.drop n⟩)
  else .error (.decodingError "Reader out of data")

/-- `discard_next(n)`. -/
def discardNext (rd : Reader) (n : Nat) : Except Err Reader :=
  if n ≤ rd.data.length then .ok ⟨rd.data.drop n⟩
  else .error (.decodingError "Reader out of data")

/-- `get_length_field(len_bytes)`: a 1- or 2-byte length prefix. -/
def getLengthField (rd : Reader) (lenBytes : Nat) : Except Err (Nat × Reader) :=
  if lenBytes = 1 then rd.getByte
  else if lenBytes = 2 then rd.getU16
  else .error (.decodingError "Bad length size")

/-- `get_num_elems(len_bytes, T_size, min, max)`. -/
def getNumElems (rd : Reader) (lenBytes tSize minElems maxElems : Nat) :
    Except Err (Nat × Reader) := do
  let (byteLength, rd) ← rd.getLengthField lenBytes
  if byteLength % tSize ≠ 0 then
    .error (.decodingError "Length field is not a multiple of element size")
  else
    let numElems := byteLength / tSize
    if numElems < minElems || numElems > maxElems then
      .error (.decodingError "Length field outside parameters")
    else .ok (numElems, rd)

/-- `get_range<uint8_t>(len_bytes, min, max)`; also `get_string`. -/
def getRangeU8 (rd : Reader) (lenBytes minElems maxElems : Nat) :
    Except Err (List Nat × Reader) := do
  let (n, rd) ← rd.getNumElems lenBytes 1 minElems maxElems
  rd.getFixed n

/-- Reading `n` big-endian `uint16_t` elements. -/
def getU16s (rd : Reader) (n : Nat) : Except Err (List Nat × Reader) :=
  match n with
  | 0 => .ok ([], rd)
  | n + 1 => do
    let (v, rd) ← rd.getU16
    let (vs, rd) ← rd.getU16s n
    .ok (v :: vs, rd)

/-- `get_range<uint16_t>(len_bytes, min, max)`. -/
def getRangeU16 (rd : Reader) (lenBytes minElems maxElems : Nat) :
    Except Err (List Nat × Reader) := do
  let (n, rd) ← rd.getNumElems lenBytes 2 minElems maxElems
  rd.getU16s n

/-- `get_string(len_bytes, min, max)`: a length-prefixed opaque byte
string (strings are modelled as byte lists). -/
def getString (rd : Reader) (lenBytes minBytes maxBytes : Nat) :
    Except Err (List Nat × Reader) :=
  rd.getRangeU8 lenBytes minBytes maxBytes

end Reader

/-- Big-endian bytes of a `uint16_t` value (the source's
`get_byte<0>`, `get_byte<1>` pair). -/
def u16be (v : Nat) : List Nat := [v / 256 % 256, v % 256]

/-- Big-endian 16-bit chunking of a byte list (used to describe wire
order of 16-bit element vectors). -/
def u16sOf : List Nat → List Nat
  | b0 :: b1 :: rest => (256 * (b0 % 256) + b1 % 256) :: u16sOf rest
  | _ => []

/-- The in-memory extension carriers: one constructor per known
extension class of `tls_extensions.cpp`, plus `Unknown_Extension`.
Host names and protocol names are byte lists; 16-bit wire codes
(groups, signature schemes, SRTP profiles, protocol versions) are
`Nat`s. -/
inductive Ext where
  | serverName (host : List Nat)
  | certStatusReq (blob : List Nat)
  | supportedGroups (groups : List Nat)
  | pointFormats (prefersCompressed : Bool)
  | sigAlgs (schemes : List Nat)
  | srtp (profiles : List Nat)
  | alpn (protocols : List (List Nat))
  | encryptThenMac
  | extendedMasterSecret
  | sessionTicket (ticket : List Nat)
  | supportedVersions (versions : List Nat)
  | renegotiation (data : List Nat)
  | unknown (code : Nat) (value : List Nat)
  deriving DecidableEq, Repr

namespace Ext

/-- `Extension::type()`: the 16-bit extension code of each carrier
(the `TLSEXT_*` constants, per the registry table of the spec). -/
def type : Ext → Nat
  | serverName _ => 0
  | certStatusReq _ => 5
  | supportedGroups _ => 10
  | pointFormats _ => 11
  | sigAlgs _ => 13
  | srtp _ => 14
  | alpn _ => 16
  | encryptThenMac => 22
  | extendedMasterSecret => 23
  | sessionTicket _ => 35
  | supportedVersions _ => 43
  | renegotiation _ => 65281
  | unknown c _ => c

/-- `Extension::empty()`.

Modelled from the spec: the per-carrier `empty()` overrides live in
`tls_extensions.h`, which is not among the sources.  Per §3/§4.D of
the spec, "extensions whose logical payload is empty are elided from
the wire block", while the two empty markers (`Extended_Master_Secret`,
`Encrypt_then_MAC`) are always written with `payload_len = 0`;
`Supported_Point_Formats` always carries a preference. -/
def empty : Ext → Bool
  | serverName host => host.isEmpty
  | certStatusReq blob => blob.isEmpty
  | supportedGroups gs => gs.isEmpty
  | pointFormats _ => false
  | sigAlgs ss => ss.isEmpty
  | srtp pp => pp.isEmpty
  | alpn ps => ps.isEmpty
  | encryptThenMac => false
  | extendedMasterSecret => false
  | sessionTicket t => t.isEmpty
  | supportedVersions vs => vs.isEmpty
  | renegotiation d => d.isEmpty
  | unknown _ v => v.isEmpty

/-- `Extension::serialize(whoami)`: the extension payload, not
including the outer code/size header (which the container writes).
Translated from the per-carrier `serialize` methods of
`tls_extensions.cpp`; `Certificate_Status_Request` and
`Session_Ticket` are modelled from the spec (their bodies are not in
the sources) as emitting their opaque bytes. -/
def serialize (e : Ext) (whoami : Side) : Except Err (List Nat) :=
  match e with
  | serverName host =>
    .ok (u16be ((host.length + 3) % 65536) ++ [0] ++ u16be (host.length % 65536) ++ host)
  | certStatusReq blob => .ok blob
  | supportedGroups gs =>
    let body := gs.flatMap (fun g => if g % 65536 > 0 then u16be (g % 65536) else [])
    .ok (u16be (body.length % 65536) ++ body)
  | pointFormats pc => .ok (if pc then [2, 1, 0] else [1, 0])
  | sigAlgs ss =>
    if 256 ≤ ss.length then .error (.invalidState "Too many signature schemes")
    else .ok (u16be (2 * ss.length % 65536) ++ ss.flatMap (fun s => u16be (s % 65536)))
  | srtp pp =>
    .ok (u16be (2 * pp.length % 65536) ++ pp.flatMap (fun p => u16be (p % 65536)) ++ [0])
  | alpn ps => do
    let buf ← ps.foldlM (fun buf p =>
      if 256 ≤ p.length then .error (.tlsAlert .internalError "ALPN name too long")
      else if p.isEmpty then .ok buf
      else .ok (buf ++ p.length % 256 :: p)) [0, 0]
    .ok (u16be ((buf.length - 2) % 65536) ++ buf.drop 2)
  | encryptThenMac => .ok []
  | extendedMasterSecret => .ok []
  | sessionTicket t => .ok t
  | supportedVersions vs =>
    match whoami with
    | .server =>
      if vs.length = 1 then .ok (u16be (vs.headD 0 % 65536))
      else .error (.invalidState "assertion failure: m_versions.size() == 1")
    | .client =>
      if vs.isEmpty then .error (.invalidState "assertion failure: !m_versions.empty()")
      else .ok (2 * vs.length % 256 :: vs.flatMap (fun v => u16be (v % 65536)))
  | renegotiation d =>
    if 256 ≤ d.length then .error (.invalidArgument "append_tls_length_value: value too large")
    else .ok (d.length % 256 :: d)
  | unknown _ _ => .error (.invalidState "Cannot encode an unknown TLS extension")

end Ext

/-- The name-entry loop of `Server_Name_Indicator`'s parsing
constructor.  `nameBytes` is the C++ `uint16_t name_bytes` counter
(all updates reduced mod 2^16); `host` is `m_sni_host_name`.  `fuel`
bounds the loop (every iteration consumes at least one reader byte);
exhaustion is reported as a non-decode error so no proof can mistake
it for a source-level failure. -/
def sniLoop (fuel : Nat) (rd : Reader) (nameBytes : Nat) (host : List Nat) :
    Except Err (List Nat × Reader) :=
  match fuel with
  | 0 => .error (.invalidState "loop fuel exhausted")
  | fuel + 1 =>
    if nameBytes = 0 then .ok (host, rd)
    else do
      let (nameType, rd) ← rd.getByte
      let nb := nameBytes - 1
      if nameType = 0 then do
        let (s, rd) ← rd.getString 2 1 65535
        sniLoop fuel rd ((nb + 2 * 65536 - (2 + s.length) % 65536) % 65536) s
      else do
        let rd ← rd.discardNext nb
        sniLoop fuel rd 0 host

/-- `Server_Name_Indicator::Server_Name_Indicator(reader, extension_size)`. -/
def sniParse (rd : Reader) (extensionSize : Nat) : Except Err (Ext × Reader) :=
  if extensionSize = 0 then .ok (.serverName [], rd)
  else do
    let (nameBytes, rd) ← rd.getU16
    if nameBytes + 2 ≠ extensionSize then
      .error (.decodingError "Bad encoding of SNI extension")
    else do
      let (host, rd) ← sniLoop (rd.remaining + 1) rd nameBytes []
      .ok (.serverName host, rd)

/-- Modelled from the spec: `Certificate_Status_Request`'s parsing
constructor lives in a source file that is not part of the sources;
the spec records only that it carries OCSP request parameters.  It is
modelled as retaining the declared-size bytes opaquely. -/
def csrParse (rd : Reader) (extensionSize : Nat) (_from : Side) (_mt : HsType) :
    Except Err (Ext × Reader) := do
  let (blob, rd) ← rd.getFixed extensionSize
  .ok (.certStatusReq blob, rd)

/-- `Supported_Groups::Supported_Groups(reader, extension_size)`. -/
def sgParse (rd : Reader) (extensionSize : Nat) : Except Err (Ext × Reader) := do
  let (len, rd) ← rd.getU16
  if len + 2 ≠ extensionSize then
    .error (.decodingError "Inconsistent length field in supported groups list")
  else if len % 2 = 1 then
    .error (.decodingError "Supported groups list of strange size")
  else do
    let (gs, rd) ← rd.getU16s (len / 2)
    .ok (.supportedGroups gs, rd)

/-- The format-scanning loop of `Supported_Point_Formats`' parsing
constructor, with `k` formats left to inspect.  `UNCOMPRESSED = 0`
and `ANSIX962_COMPRESSED_PRIME = 1`; on the first recognized format
the rest of the list is discarded.  If no format is recognized the
flag keeps its default `false` (modelled from the spec: the member
initializer is in the missing header). -/
def spfLoop (k : Nat) (rd : Reader) : Except Err (Bool × Reader) :=
  match k with
  | 0 => .ok (false, rd)
  | k + 1 => do
    let (format, rd) ← rd.getByte
    if format = 0 then do
      let rd ← rd.discardNext k
      .ok (false, rd)
    else if format = 1 then do
      let rd ← rd.discardNext k
      .ok (true, rd)
    else spfLoop k rd

/-- `Supported_Point_Formats::Supported_Point_Formats(reader, extension_size)`. -/
def spfParse (rd : Reader) (extensionSize : Nat) : Except Err (Ext × Reader) := do
  let (len, rd) ← rd.getByte
  if len + 1 ≠ extensionSize then
    .error (.decodingError "Inconsistent length field in supported point formats list")
  else do
    let (pc, rd) ← spfLoop len rd
    .ok (.pointFormats pc, rd)

/-- `Renegotiation_Extension::Renegotiation_Extension(reader, extension_size)`. -/
def renegParse (rd : Reader) (extensionSize : Nat) : Except Err (Ext × Reader) := do
  let (d, rd) ← rd.getRangeU8 1 0 255
  if d.length + 1 ≠ extensionSize then
    .error (.decodingError "Bad encoding for secure renegotiation extn")
  else .ok (.renegotiation d, rd)

/-- The scheme-reading loop of `Signature_Algorithms`' parsing
constructor; `len` is the C++ `uint16_t len` counter whose `-= 2`
updates wrap mod 2^16. -/
def sigAlgsLoop (fuel : Nat) (rd : Reader) (len : Nat) : Except Err (List Nat × Reader) :=
  match fuel with
  | 0 => .error (.invalidState "loop fuel exhausted")
  | fuel + 1 =>
    if len = 0 then .ok ([], rd)
    else do
      let (s, rd) ← rd.getU16
      let (ss, rd) ← sigAlgsLoop fuel rd ((len + 65536 - 2) % 65536)
      .ok (s :: ss, rd)

/-- `Signature_Algorithms::Signature_Algorithms(reader, extension_size)`. -/
def sigAlgsParse (rd : Reader) (extensionSize : Nat) : Except Err (Ext × Reader) := do
  let (len, rd) ← rd.getU16
  if len + 2 ≠ extensionSize || len % 2 = 1 || len = 0 then
    .error (.decodingError "Bad encoding on signature algorithms extension")
  else do
    let (ss, rd) ← sigAlgsLoop (rd.remaining + 1) rd len
    .ok (.sigAlgs ss, rd)

/-- `Session_Ticket::Session_Ticket(reader, extension_size)`. -/
def stParse (rd : Reader) (extensionSize : Nat) : Except Err (Ext × Reader) := do
  let (t, rd) ← rd.getFixed extensionSize
  .ok (.sessionTicket t, rd)

/-- `SRTP_Protection_Profiles::SRTP_Protection_Profiles(reader, extension_size)`. -/
def srtpParse (rd : Reader) (extensionSize : Nat) : Except Err (Ext × Reader) := do
  let (pp, rd) ← rd.getRangeU16 2 0 65535
  let (mki, rd) ← rd.getRangeU8 1 0 255
  if pp.length * 2 + mki.length + 3 ≠ extensionSize then
    .error (.decodingError "Bad encoding for SRTP protection extension")
  else if ¬ mki.isEmpty then
    .error (.decodingError "Unhandled non-empty MKI for SRTP protection extension")
  else .ok (.srtp pp, rd)

/-- `Extended_Master_Secret::Extended_Master_Secret(reader, extension_size)`. -/
def emsParse (rd : Reader) (extensionSize : Nat) : Except Err (Ext × Reader) :=
  if extensionSize ≠ 0 then .error (.decodingError "Invalid extended_master_secret extension")
  else .ok (.extendedMasterSecret, rd)

/-- `Encrypt_then_MAC::Encrypt_then_MAC(reader, extension_size)`. -/
def etmParse (rd : Reader) (extensionSize : Nat) : Except Err (Ext × Reader) :=
  if extensionSize ≠ 0 then .error (.decodingError "Invalid encrypt_then_mac extension")
  else .ok (.encryptThenMac, rd)

/-- The protocol-name loop of `Application_Layer_Protocol_Notification`'s
parsing constructor; `bytesRemaining` is the C++ `size_t` counter. -/
def alpnLoop (fuel : Nat) (rd : Reader) (bytesRemaining : Nat) :
    Except Err (List (List Nat) × Reader) :=
  match fuel with
  | 0 => .error (.invalidState "loop fuel exhausted")
  | fuel + 1 =>
    if bytesRemaining = 0 then .ok ([], rd)
    else do
      let (p, rd) ← rd.getString 1 0 255
      if bytesRemaining < p.length + 1 then
        .error (.decodingError "Bad encoding of ALPN, length field too long")
      else if p.isEmpty then
        .error (.decodingError "Empty ALPN protocol not allowed")
      else do
        let (ps, rd) ← alpnLoop fuel rd (bytesRemaining - (p.length + 1))
        .ok (p :: ps, rd)

/-- `Application_Layer_Protocol_Notification`'s parsing constructor.
`size_t bytes_remaining = extension_size - 2` is 64-bit arithmetic,
hence the mod-2^64 reduction. -/
def alpnParse (rd : Reader) (extensionSize : Nat) (from_ : Side) :
    Except Err (Ext × Reader) :=
  if extensionSize = 0 then .ok (.alpn [], rd)
  else do
    let (nameBytes, rd) ← rd.getU16
    let bytesRemaining := (extensionSize + 2 ^ 64 - 2) % 2 ^ 64
    if nameBytes ≠ bytesRemaining then
      .error (.decodingError "Bad encoding of ALPN extension, bad length field")
    else do
      let (ps, rd) ← alpnLoop (1 + rd.remaining) rd bytesRemaining
      if from_ = Side.server ∧ ps.length ≠ 1 then
        .error (.tlsAlert .decodeError "Server sent protocols in ALPN extension response")
      else .ok (.alpn ps, rd)

/-- `Supported_Versions::Supported_Versions(reader, extension_size, from)`.
A `Protocol_Version` is stored as its 16-bit wire code. -/
def svParse (rd : Reader) (extensionSize : Nat) (from_ : Side) :
    Except Err (Ext × Reader) :=
  if from_ = Side.server then
    if extensionSize ≠ 2 then
      .error (.decodingError "Server sent invalid supported_versions extension")
    else do
      let (v, rd) ← rd.getU16
      .ok (.supportedVersions [v], rd)
  else do
    let (vs, rd) ← rd.getRangeU16 1 1 127
    if extensionSize ≠ 1 + 2 * vs.length then
      .error (.decodingError "Client sent invalid supported_versions extension")
    else .ok (.supportedVersions vs, rd)

/-- `Unknown_Extension::Unknown_Extension(type, reader, extension_size)`. -/
def unknownParse (code : Nat) (rd : Reader) (extensionSize : Nat) :
    Except Err (Ext × Reader) := do
  let (v, rd) ← rd.getFixed extensionSize
  .ok (.unknown code v, rd)

/-- `make_extension(reader, code, size, from, message_type)`: the
registry dispatch on the 16-bit extension code. -/
def makeExtension (rd : Reader) (code size : Nat) (from_ : Side) (mt : HsType) :
    Except Err (Ext × Reader) :=
  if code = 0 then sniParse rd size
  else if code = 10 then sgParse rd size
  else if code = 5 then csrParse rd size from_ mt
  else if code = 11 then spfParse rd size
  else if code = 65281 then renegParse rd size
  else if code = 13 then sigAlgsParse rd size
  else if code = 14 then srtpParse rd size
  else if code = 16 then alpnParse rd size from_
  else if code = 23 then emsParse rd size
  else if code = 22 then etmParse rd size
  else if code = 35 then stParse rd size
  else if code = 43 then svParse rd size from_
  else unknownParse code rd size

/-- The `Extensions` container: an ordered sequence of owned
extensions (`m_extensions`). -/
structure Extensions where
  exts : List Ext
  deriving DecidableEq, Repr

namespace Extensions

/-- `Extensions::has(type)`: presence of an extension code
(modelled from the spec's container interface; the inline definition
is in the missing header). -/
def has (c : Extensions) (code : Nat) : Bool :=
  c.exts.any (fun e => e.type == code)

/-- `Extensions::add(extn)`: fails with `Invalid_Argument` when the
code is already present, else appends. -/
def add (c : Extensions) (e : Ext) : Except Err Extensions :=
  if c.has e.type then
    .error (.invalidArgument "cannot add the same extension twice")
  else .ok ⟨c.exts ++ [e]⟩

/-- The `while(reader.has_remaining())` loop of
`Extensions::deserialize`: read a code and a size, reject duplicates
with a fatal `DECODE_ERROR`, dispatch through the registry, add.
`fuel` bounds the loop (every iteration consumes at least four reader
bytes); exhaustion is reported as a non-decode error. -/
def deserCore (fuel : Nat) (c : Extensions) (rd : Reader) (from_ : Side) (mt : HsType) :
    Except Err (Extensions × Reader) :=
  match fuel with
  | 0 => .error (.invalidState "loop fuel exhausted")
  | fuel + 1 =>
    if rd.hasRemaining then do
      let (code, rd) ← rd.getU16
      let (size, rd) ← rd.getU16
      if c.has code then
        .error (.tlsAlert .decodeError "Peer sent duplicated extensions")
      else do
        let (e, rd) ← makeExtension rd code size from_ mt
        let c ← c.add e
        deserCore fuel c rd from_ mt
    else .ok (c, rd)

/-- `Extensions::deserialize(reader, from, message_type)`: when any
input remains, read the 2-byte total size, require it to equal the
remaining byte count, then run the triple-reading loop. -/
def deserialize (c : Extensions) (rd : Reader) (from_ : Side) (mt : HsType) :
    Except Err (Extensions × Reader) :=
  if rd.hasRemaining then do
    let (allExtnSize, rd) ← rd.getU16
    if rd.remaining ≠ allExtnSize then .error (.decodingError "Bad extension size")
    else deserCore (rd.remaining + 1) c rd from_ mt
  else .ok (c, rd)

/-- `Extensions::serialize(whoami)`: start from a 2-byte placeholder,
append a `(code, payload_len, payload)` triple for each non-empty
extension, patch the total length into the first two bytes, and
return the empty sequence when the body is empty. -/
def serialize (c : Extensions) (whoami : Side) : Except Err (List Nat) := do
  let buf ← c.exts.foldlM (fun buf e =>
    if e.empty then .ok buf
    else do
      let v ← e.serialize whoami
      .ok (buf ++ u16be (e.type % 65536) ++ u16be (v.length % 65536) ++ v)) [0, 0]
  let extnSize := (buf.length - 2) % 65536
  let buf := u16be extnSize ++ buf.drop 2
  if buf.length = 2 then .ok [] else .ok buf

/-- `Extensions::extension_types()`: the set of present codes,
modelled as a duplicate-free sorted list (a `std::set` in the
source). -/
def extensionTypes (c : Extensions) : List Nat :=
  ((c.exts.map Ext.type).dedup).insertionSort (· ≤ ·)

end Extensions

/-- The wire framing of an extensions block, as the spec describes
it: an optional 2-byte total size that must equal the remaining byte
count, then `(code, size, payload)` triples cut by their declared
sizes.  This is the claim-side notion of "the extensions a block
contains"; `Extensions.deserialize` is proved to track it. -/
def subTriples (fuel : Nat) (b : List Nat) : Except Err (List (Nat × Nat × List Nat)) :=
  match fuel with
  | 0 => .error (.invalidState "loop fuel exhausted")
  | fuel + 1 =>
    match b with
    | [] => .ok []
    | b0 :: b1 :: b2 :: b3 :: rest =>
      let code := 256 * (b0 % 256) + b1 % 256
      let size := 256 * (b2 % 256) + b3 % 256
      if size ≤ rest.length then do
        let ts ← subTriples fuel (rest.drop size)
        .ok ((code, size, rest.take size) :: ts)
      else .error (.decodingError "truncated extension payload")
    | _ => .error (.decodingError "truncated extension header")

/-- Cut a whole extensions block into its declared `(code, size,
payload)` triples: empty input means no block at all. -/
def parseTriples (b : List Nat) : Except Err (List (Nat × Nat × List Nat)) :=
  match b with
  | [] => .ok []
  | b0 :: b1 :: rest =>
    if rest.length = 256 * (b0 % 256) + b1 % 256 then subTriples (rest.length + 1) rest
    else .error (.decodingError "Bad extension size")
  | _ => .error (.decodingError "truncated length prefix")

/-! ### Reader primitive lemmas: exact consumption and decode-kind errors -/

namespace Reader

theorem getByte_ok {rd rd' : Reader} {v : Nat} (h : rd.getByte = .ok (v, rd')) :
    rd'.data = rd.data.drop 1 ∧ rd.data.length = rd'.data.length + 1 ∧ v < 256 := by
  obtain ⟨data⟩ := rd
  cases data with
  | nil => simp [getByte] at h
  | cons b rest =>
    simp [getByte] at h
    obtain ⟨hv, hrd⟩ := h
    subst hv hrd
    refine ⟨rfl, rfl, Nat.mod_lt _ (by omega)⟩

theorem getByte_err {rd : Reader} {e : Err} (h : rd.getByte = .error e) :
    e.isDecodeError := by
  obtain ⟨data⟩ := rd
  cases data with
  | nil => simp [getByte] at h; subst h; rfl
  | cons b rest => simp [getByte] at h

theorem getU16_ok {rd rd' : Reader} {v : Nat} (h : rd.getU16 = .ok (v, rd')) :
    rd'.data = rd.data.drop 2 ∧ rd.data.length = rd'.data.length + 2 ∧ v < 65536 := by
  obtain ⟨data⟩ := rd
  match data with
  | [] => simp [getU16] at h
  | [b0] => simp [getU16] at h
  | b0 :: b1 :: rest =>
    simp [getU16] at h
    obtain ⟨hv, hrd⟩ := h
    subst hv hrd
    refine ⟨rfl, rfl, ?_⟩
    have h0 : b0 % 256 < 256 := Nat.mod_lt _ (by omega)
    have h1 : b1 % 256 < 256 := Nat.mod_lt _ (by omega)
    omega

theorem getU16_err {rd : Reader} {e : Err} (h : rd.getU16 = .error e) :
    e.isDecodeError := by
  obtain ⟨data⟩ := rd
  match data with
  | [] => simp [getU16] at h; subst h; rfl
  | [b0] => simp [getU16] at h; subst h; rfl
  | b0 :: b1 :: rest => simp [getU16] at h

theorem getFixed_ok {rd rd' : Reader} {n : Nat} {l : List Nat}
    (h : rd.getFixed n = .ok (l, rd')) :
    rd'.data = rd.data.drop n ∧ rd.data.length = rd'.data.length + n ∧
      l = (rd.data.take n).map (· % 256) ∧ l.length = n ∧ ∀ x ∈ l, x < 256 := by
  unfold getFixed at h
  split at h
  case isTrue hle =>
    simp [Bind.bind, Except.bind] at h
    obtain ⟨hl, hrd⟩ := h
    subst hl hrd
    refine ⟨rfl, by simp; omega, ?_, by simp; omega, ?_⟩
    · exact (List.map_take ..).symm
    · intro x hx
      have hx' := List.take_subset _ _ hx
      simp at hx'
      obtain ⟨a, _, ha⟩ := hx'
      omega
  case isFalse => simp [Bind.bind, Except.bind] at h

theorem getFixed_err {rd : Reader} {n : Nat} {e : Err} (h : rd.getFixed n = .error e) :
    e.isDecodeError := by
  unfold getFixed at h
  split at h
  · simp [Bind.bind, Except.bind] at h
  · simp at h; subst h; rfl

theorem discardNext_ok {rd rd' : Reader} {n : Nat} (h : rd.discardNext n = .ok rd') :
    rd'.data = rd.data.drop n ∧ rd.data.length = rd'.data.length + n := by
  unfold discardNext at h
  split at h
  case isTrue hle => simp at h; subst h; exact ⟨rfl, by simp; omega⟩
  case isFalse => simp [Bind.bind, Except.bind] at h

theorem discardNext_err {rd : Reader} {n : Nat} {e : Err}
    (h : rd.discardNext n = .error e) : e.isDecodeError := by
  unfold discardNext at h
  split at h
  · simp [Bind.bind, Except.bind] at h
  · simp at h; subst h; rfl

theorem getLengthField_ok {rd rd' : Reader} {lb v : Nat}
    (h : rd.getLengthField lb = .ok (v, rd')) :
    rd'.data = rd.data.drop lb ∧ rd.data.length = rd'.data.length + lb ∧ v < 256 ^ lb := by
  unfold getLengthField at h
  split at h
  case isTrue h1 =>
    subst h1
    have := getByte_ok h
    simpa using this
  case isFalse h1 =>
    split at h
    case isTrue h2 =>
      subst h2
      have := getU16_ok h
      simpa using this
    case isFalse h2 => simp [Bind.bind, Except.bind] at h

theorem getLengthField_err {rd : Reader} {lb : Nat} {e : Err}
    (h : rd.getLengthField lb = .error e) : e.isDecodeError := by
  unfold getLengthField at h
  split at h
  · exact getByte_err h
  · split at h
    · exact getU16_err h
    · simp at h; subst h; rfl

theorem getNumElems_ok {rd rd' : Reader} {lb t minE maxE n : Nat}
    (h : rd.getNumElems lb t minE maxE = .ok (n, rd')) :
    rd'.data = rd.data.drop lb ∧ rd.data.length = rd'.data.length + lb ∧
      minE ≤ n ∧ n ≤ maxE ∧ n * t < 256 ^ lb := by
  unfold getNumElems at h
  cases hlf : rd.getLengthField lb with
  | error e => rw [hlf] at h; simp [Bind.bind, Except.bind] at h
  | ok vrd =>
    obtain ⟨v, rd1⟩ := vrd
    rw [hlf] at h
    simp only [Bind.bind, Except.bind] at h
    split at h
    next hmod => simp at h
    next hmod =>
      split at h
      next hbounds => simp at h
      next hbounds =>
        simp at h
        obtain ⟨hn, hrd⟩ := h
        subst hn hrd
        obtain ⟨hd, hl, hv⟩ := getLengthField_ok hlf
        simp at hbounds
        refine ⟨hd, hl, hbounds.1, hbounds.2, ?_⟩
        calc v / t * t ≤ v := Nat.div_mul_le_self v t
        _ < 256 ^ lb := hv

theorem getNumElems_err {rd : Reader} {lb t minE maxE : Nat} {e : Err}
    (h : rd.getNumElems lb t minE maxE = .error e) : e.isDecodeError := by
  unfold getNumElems at h
  cases hlf : rd.getLengthField lb with
  | error e' =>
    rw [hlf] at h
    simp [Bind.bind, Except.bind] at h
    subst h
    exact getLengthField_err hlf
  | ok vrd =>
    obtain ⟨v, rd1⟩ := vrd
    rw [hlf] at h
    simp only [Bind.bind, Except.bind] at h
    split at h
    · simp at h; subst h; rfl
    · split at h
      · simp at h; subst h; rfl
      · simp at h

theorem getRangeU8_ok {rd rd' : Reader} {lb minE maxE : Nat} {l : List Nat}
    (h : rd.getRangeU8 lb minE maxE = .ok (l, rd')) :
    rd'.data = rd.data.drop (lb + l.length) ∧
      rd.data.length = rd'.data.length + lb + l.length ∧
      minE ≤ l.length ∧ l.length ≤ maxE ∧ (∀ x ∈ l, x < 256) ∧
      l = ((rd.data.drop lb).take l.length).map (· % 256) := by
  unfold getRangeU8 at h
  cases hne : rd.getNumElems lb 1 minE maxE with
  | error e => rw [hne] at h; simp [Bind.bind, Except.bind] at h
  | ok nrd =>
    obtain ⟨n, rd1⟩ := nrd
    rw [hne] at h
    simp [Bind.bind, Except.bind] at h
    obtain ⟨hd1, hl1, hminE, hmaxE, _⟩ := getNumElems_ok hne
    obtain ⟨hd2, hl2, hval, hlen, hmem⟩ := getFixed_ok h
    subst hlen
    rw [hd1] at hd2 hval
    rw [List.drop_drop] at hd2
    refine ⟨?_, by omega, hminE, hmaxE, hmem, hval⟩
    rw [hd2, Nat.add_comm]

theorem getRangeU8_err {rd : Reader} {lb minE maxE : Nat} {e : Err}
    (h : rd.getRangeU8 lb minE maxE = .error e) : e.isDecodeError := by
  unfold getRangeU8 at h
  cases hne : rd.getNumElems lb 1 minE maxE with
  | error e' =>
    rw [hne] at h
    simp [Bind.bind, Except.bind] at h
    subst h
    exact getNumElems_err hne
  | ok nrd =>
    obtain ⟨n, rd1⟩ := nrd
    rw [hne] at h
    simp [Bind.bind, Except.bind] at h
    exact getFixed_err h

theorem getByte_ok_decomp {rd rd' : Reader} {v : Nat} (h : rd.getByte = .ok (v, rd')) :
    ∃ b, rd.data = b :: rd'.data ∧ v = b % 256 := by
  obtain ⟨data⟩ := rd
  cases data with
  | nil => simp [getByte] at h
  | cons b rest =>
    simp [getByte] at h
    exact ⟨b, by rw [← h.2], h.1.symm⟩

theorem getU16_ok_decomp {rd rd' : Reader} {v : Nat} (h : rd.getU16 = .ok (v, rd')) :
    ∃ b0 b1, rd.data = b0 :: b1 :: rd'.data ∧ v = 256 * (b0 % 256) + b1 % 256 := by
  obtain ⟨data⟩ := rd
  match data with
  | [] => simp [getU16] at h
  | [b0] => simp [getU16] at h
  | b0 :: b1 :: rest =>
    simp [getU16] at h
    exact ⟨b0, b1, by rw [← h.2], h.1.symm⟩

theorem getU16s_ok {rd rd' : Reader} {n : Nat} {l : List Nat}
    (h : rd.getU16s n = .ok (l, rd')) :
    rd'.data = rd.data.drop (2 * n) ∧ rd.data.length = rd'.data.length + 2 * n ∧
      l.length = n ∧ l = u16sOf (rd.data.take (2 * n)) ∧ ∀ x ∈ l, x < 65536 := by
  induction n generalizing rd l with
  | zero =>
    simp [Reader.getU16s] at h
    obtain ⟨hl, hrd⟩ := h
    subst hl hrd
    simp [u16sOf]
  | succ k ih =>
    rw [Reader.getU16s] at h
    cases h1 : rd.getU16 with
    | error e => rw [h1] at h; simp [Bind.bind, Except.bind] at h
    | ok vrd =>
      obtain ⟨v, rd1⟩ := vrd
      rw [h1] at h
      simp [Bind.bind, Except.bind] at h
      cases h2 : rd1.getU16s k with
      | error e => rw [h2] at h; simp [Bind.bind, Except.bind] at h
      | ok vsrd =>
        obtain ⟨vs, rd2⟩ := vsrd
        rw [h2] at h
        simp [Bind.bind, Except.bind] at h
        obtain ⟨hl, hrd⟩ := h
        subst hl hrd
        obtain ⟨_, hl1, hv⟩ := getU16_ok h1
        obtain ⟨b0, b1, hdata, hvv⟩ := getU16_ok_decomp h1
        obtain ⟨hd2, hl2, hlen, hval, hmem⟩ := ih h2
        subst hlen
        have h2n : 2 * (vs.length + 1) = 2 * vs.length + 1 + 1 := by omega
    
        refine ⟨?_, by omega, by simp, ?_, ?_⟩
        · rw [hdata, h2n, List.drop_succ_cons, List.drop_succ_cons, ← hd2]
        · rw [hdata, h2n, List.take_succ_cons, List.take_succ_cons, u16sOf, ← hvv, ← hval]
        · intro x hx
          rcases List.mem_cons.mp hx with hx | hx
          · omega
          · exact hmem x hx

theorem getU16s_err {rd : Reader} {n : Nat} {e : Err}
    (h : rd.getU16s n = .error e) : e.isDecodeError := by
  induction n generalizing rd with
  | zero => simp [Reader.getU16s] at h
  | succ k ih =>
    rw [Reader.getU16s] at h
    cases h1 : rd.getU16 with
    | error e' =>
      rw [h1] at h
      simp [Bind.bind, Except.bind] at h
      subst h
      exact getU16_err h1
    | ok vrd =>
      obtain ⟨v, rd1⟩ := vrd
      rw [h1] at h
      simp [Bind.bind, Except.bind] at h
      cases h2 : rd1.getU16s k with
      | error e' =>
        rw [h2] at h
        simp [Bind.bind, Except.bind] at h
        subst h
        exact ih h2
      | ok vsrd => rw [h2] at h; simp [Bind.bind, Except.bind] at h

theorem getRangeU16_ok {rd rd' : Reader} {lb minE maxE : Nat} {l : List Nat}
    (h : rd.getRangeU16 lb minE maxE = .ok (l, rd')) :
    rd'.data = rd.data.drop (lb + 2 * l.length) ∧
      rd.data.length = rd'.data.length + lb + 2 * l.length ∧
      minE ≤ l.length ∧ l.length ≤ maxE ∧ ∀ x ∈ l, x < 65536 := by
  unfold getRangeU16 at h
  cases hne : rd.getNumElems lb 2 minE maxE with
  | error e => rw [hne] at h; simp [Bind.bind, Except.bind] at h
  | ok nrd =>
    obtain ⟨n, rd1⟩ := nrd
    rw [hne] at h
    simp [Bind.bind, Except.bind] at h
    obtain ⟨hd1, hl1, hminE, hmaxE, _⟩ := getNumElems_ok hne
    obtain ⟨hd2, hl2, hlen, _, hmem⟩ := getU16s_ok h
    subst hlen
    rw [hd1] at hd2
    rw [List.drop_drop] at hd2
    refine ⟨?_, by omega, hminE, hmaxE, hmem⟩
    rw [hd2, Nat.add_comm]

theorem getRangeU16_err {rd : Reader} {lb minE maxE : Nat} {e : Err}
    (h : rd.getRangeU16 lb minE maxE = .error e) : e.isDecodeError := by
  unfold getRangeU16 at h
  cases hne : rd.getNumElems lb 2 minE maxE with
  | error e' =>
    rw [hne] at h
    simp [Bind.bind, Except.bind] at h
    subst h
    exact getNumElems_err hne
  | ok nrd =>
    obtain ⟨n, rd1⟩ := nrd
    rw [hne] at h
    simp [Bind.bind, Except.bind] at h
    exact getU16s_err h

theorem getString_ok {rd rd' : Reader} {lb minB maxB : Nat} {s : List Nat}
    (h : rd.getString lb minB maxB = .ok (s, rd')) :
    rd'.data = rd.data.drop (lb + s.length) ∧
      rd.data.length = rd'.data.length + lb + s.length ∧
      minB ≤ s.length ∧ s.length ≤ maxB := by
  obtain ⟨a, b, c, d, _⟩ := getRangeU8_ok h
  exact ⟨a, b, c, d⟩

theorem getString_err {rd : Reader} {lb minB maxB : Nat} {e : Err}
    (h : rd.getString lb minB maxB = .error e) : e.isDecodeError :=
  getRangeU8_err h

end Reader

/-- A suffix of a list is the drop at the length difference. -/
theorem suffix_eq_drop {α : Type} {l' l : List α} (h : l' <:+ l) :
    l' = l.drop (l.length - l'.length) := by
  obtain ⟨t, rfl⟩ := h
  have : (t ++ l').length - l'.length = t.length := by simp
  rw [this, List.drop_left]

/-! ### Carrier lemmas: every carrier, on success, consumes exactly its
declared size; every carrier failure is decode-kind. -/

/-- The SNI name-entry loop only ever consumes, and the number of
bytes it consumes is congruent mod 2^16 to the initial value of the
`uint16_t name_bytes` counter. -/
theorem sniLoop_ok {fuel : Nat} {rd rd' : Reader} {nb : Nat} {host host' : List Nat}
    (h : sniLoop fuel rd nb host = .ok (host', rd')) :
    rd'.data <:+ rd.data ∧
      (rd.data.length - rd'.data.length) % 65536 = nb % 65536 := by
  induction fuel generalizing rd nb host with
  | zero => simp [sniLoop] at h
  | succ f ih =>
    rw [sniLoop] at h
    split at h
    next hnb =>
      simp at h
      obtain ⟨_, hrd⟩ := h
      subst hnb hrd
      simp
    next hnb =>
      cases h1 : rd.getByte with
      | error e => rw [h1] at h; simp [Bind.bind, Except.bind] at h
      | ok trd =>
        obtain ⟨t, rd1⟩ := trd
        rw [h1] at h
        simp only [Bind.bind, Except.bind] at h
        obtain ⟨hd1, hl1, _⟩ := Reader.getByte_ok h1
        split at h
        next ht =>
          cases h2 : rd1.getString 2 1 65535 with
          | error e => rw [h2] at h; simp [Bind.bind, Except.bind] at h
          | ok srd =>
            obtain ⟨s, rd2⟩ := srd
            rw [h2] at h
            simp only [Bind.bind, Except.bind] at h
            obtain ⟨hd2, hl2, _, hsmax⟩ := Reader.getString_ok h2
            obtain ⟨hsuf, hc⟩ := ih h
            have hsuf1 : rd'.data <:+ rd.data := by
              have s2 : rd2.data <:+ rd1.data := by rw [hd2]; exact List.drop_suffix _ _
              have s1 : rd1.data <:+ rd.data := by rw [hd1]; exact List.drop_suffix _ _
              exact hsuf.trans (s2.trans s1)
            have hle : rd'.data.length ≤ rd2.data.length := hsuf.length_le
            refine ⟨hsuf1, ?_⟩
            omega
        next ht =>
          cases h2 : rd1.discardNext (nb - 1) with
          | error e => rw [h2] at h; simp [Bind.bind, Except.bind] at h
          | ok rd2 =>
            rw [h2] at h
            simp only [Bind.bind, Except.bind] at h
            obtain ⟨hd2, hl2⟩ := Reader.discardNext_ok h2
            obtain ⟨hsuf, hc⟩ := ih h
            have hsuf1 : rd'.data <:+ rd.data := by
              have s2 : rd2.data <:+ rd1.data := by rw [hd2]; exact List.drop_suffix _ _
              have s1 : rd1.data <:+ rd.data := by rw [hd1]; exact List.drop_suffix _ _
              exact hsuf.trans (s2.trans s1)
            have hle : rd'.data.length ≤ rd2.data.length := hsuf.length_le
            refine ⟨hsuf1, ?_⟩
            omega

/-- Any failure of the SNI name-entry loop is a decode error,
provided the fuel covers the remaining bytes (every iteration
consumes at least one byte). -/
theorem sniLoop_err {fuel : Nat} {rd : Reader} {nb : Nat} {host : List Nat} {e : Err}
    (hfuel : rd.data.length + 1 ≤ fuel)
    (h : sniLoop fuel rd nb host = .error e) : e.isDecodeError := by
  induction fuel generalizing rd nb host with
  | zero => omega
  | succ f ih =>
    rw [sniLoop] at h
    split at h
    next => simp at h
    next hnb =>
      cases h1 : rd.getByte with
      | error e1 =>
        rw [h1] at h
        simp [Bind.bind, Except.bind] at h
        subst h
        exact Reader.getByte_err h1
      | ok trd =>
        obtain ⟨t, rd1⟩ := trd
        rw [h1] at h
        simp only [Bind.bind, Except.bind] at h
        obtain ⟨hd1, hl1, _⟩ := Reader.getByte_ok h1
        split at h
        next ht =>
          cases h2 : rd1.getString 2 1 65535 with
          | error e2 =>
            rw [h2] at h
            simp [Bind.bind, Except.bind] at h
            subst h
            exact Reader.getString_err h2
          | ok srd =>
            obtain ⟨s, rd2⟩ := srd
            rw [h2] at h
            simp only [Bind.bind, Except.bind] at h
            obtain ⟨hd2, hl2, _, _⟩ := Reader.getString_ok h2
            exact ih (by omega) h
        next ht =>
          cases h2 : rd1.discardNext (nb - 1) with
          | error e2 =>
            rw [h2] at h
            simp [Bind.bind, Except.bind] at h
            subst h
            exact Reader.discardNext_err h2
          | ok rd2 =>
            rw [h2] at h
            simp only [Bind.bind, Except.bind] at h
            obtain ⟨hd2, hl2⟩ := Reader.discardNext_ok h2
            exact ih (by omega) h

/-- `Server_Name_Indicator` parsing consumes exactly the declared
size (the reader never holds 2^16 bytes or more inside an extensions
block, which rules out the `uint16_t` wraparound of `name_bytes`
being compensated by over-consumption). -/
theorem sniParse_ok {rd rd' : Reader} {size : Nat} {e : Ext}
    (hlen : rd.data.length < 65536)
    (h : sniParse rd size = .ok (e, rd')) :
    rd'.data = rd.data.drop size ∧ rd.data.length = rd'.data.length + size := by
  unfold sniParse at h
  split at h
  next hsz =>
    simp at h
    obtain ⟨_, hrd⟩ := h
    subst hsz hrd
    simp
  next hsz =>
    cases h1 : rd.getU16 with
    | error e1 => rw [h1] at h; simp [Bind.bind, Except.bind] at h
    | ok nrd =>
      obtain ⟨nb, rd1⟩ := nrd
      rw [h1] at h
      simp only [Bind.bind, Except.bind] at h
      obtain ⟨hd1, hl1, hnb⟩ := Reader.getU16_ok h1
      split at h
      next => simp at h
      next hchk =>
        cases h2 : sniLoop (rd1.remaining + 1) rd1 nb [] with
        | error e2 => rw [h2] at h; simp [Bind.bind, Except.bind] at h
        | ok hrd2 =>
          obtain ⟨host, rd2⟩ := hrd2
          rw [h2] at h
          simp [Bind.bind, Except.bind] at h
          obtain ⟨_, hrd⟩ := h
          subst hrd
          obtain ⟨hsuf, hc⟩ := sniLoop_ok h2
          have hle : rd2.data.length ≤ rd1.data.length := hsuf.length_le
          have hcons : rd1.data.length - rd2.data.length = nb := by omega
          have hlen2 : rd.data.length = rd2.data.length + size := by omega
          refine ⟨?_, hlen2⟩
          have hs : rd2.data <:+ rd.data := by
            have s1 : rd1.data <:+ rd.data := by rw [hd1]; exact List.drop_suffix _ _
            exact hsuf.trans s1
          have hsz2 : rd.data.length - rd2.data.length = size := by omega
          rw [← hsz2]
          exact suffix_eq_drop hs

theorem sniParse_err {rd : Reader} {size : Nat} {e : Err}
    (h : sniParse rd size = .error e) : e.isDecodeError := by
  unfold sniParse at h
  split at h
  next => simp at h
  next hsz =>
    cases h1 : rd.getU16 with
    | error e1 =>
      rw [h1] at h
      simp [Bind.bind, Except.bind] at h
      subst h
      exact Reader.getU16_err h1
    | ok nrd =>
      obtain ⟨nb, rd1⟩ := nrd
      rw [h1] at h
      simp only [Bind.bind, Except.bind] at h
      split at h
      next =>
        simp at h
        subst h
        rfl
      next =>
        cases h2 : sniLoop (rd1.remaining + 1) rd1 nb [] with
        | error e2 =>
          rw [h2] at h
          simp [Bind.bind, Except.bind] at h
          subst h
          exact sniLoop_err (by simp [Reader.remaining]) h2
        | ok hrd2 =>
          obtain ⟨host, rd2⟩ := hrd2
          rw [h2] at h
          simp [Bind.bind, Except.bind] at h

/-- The spec-modelled `Certificate_Status_Request` parse consumes
exactly the declared size. -/
theorem csrParse_ok {rd rd' : Reader} {size : Nat} {sd : Side} {mt : HsType} {e : Ext}
    (h : csrParse rd size sd mt = .ok (e, rd')) :
    rd'.data = rd.data.drop size ∧ rd.data.length = rd'.data.length + size := by
  unfold csrParse at h
  cases h1 : rd.getFixed size with
  | error e1 => rw [h1] at h; simp [Bind.bind, Except.bind] at h
  | ok brd =>
    obtain ⟨blob, rd1⟩ := brd
    rw [h1] at h
    simp [Bind.bind, Except.bind] at h
    obtain ⟨_, hrd⟩ := h
    subst hrd
    obtain ⟨hd, hl, _, _, _⟩ := Reader.getFixed_ok h1
    exact ⟨hd, hl⟩

theorem csrParse_err {rd : Reader} {size : Nat} {sd : Side} {mt : HsType} {e : Err}
    (h : csrParse rd size sd mt = .error e) : e.isDecodeError := by
  unfold csrParse at h
  cases h1 : rd.getFixed size with
  | error e1 =>
    rw [h1] at h
    simp [Bind.bind, Except.bind] at h
    subst h
    exact Reader.getFixed_err h1
  | ok brd =>
    obtain ⟨blob, rd1⟩ := brd
    rw [h1] at h
    simp [Bind.bind, Except.bind] at h

/-- `Supported_Groups` parsing consumes exactly the declared size. -/
theorem sgParse_ok {rd rd' : Reader} {size : Nat} {e : Ext}
    (h : sgParse rd size = .ok (e, rd')) :
    rd'.data = rd.data.drop size ∧ rd.data.length = rd'.data.length + size := by
  unfold sgParse at h
  cases h1 : rd.getU16 with
  | error e1 => rw [h1] at h; simp [Bind.bind, Except.bind] at h
  | ok nrd =>
    obtain ⟨len, rd1⟩ := nrd
    rw [h1] at h
    simp only [Bind.bind, Except.bind] at h
    obtain ⟨hd1, hl1, _⟩ := Reader.getU16_ok h1
    split at h
    next => simp at h
    next hchk =>
      split at h
      next => simp at h
      next hodd =>
        cases h2 : rd1.getU16s (len / 2) with
        | error e2 => rw [h2] at h; simp [Bind.bind, Except.bind] at h
        | ok grd =>
          obtain ⟨gs, rd2⟩ := grd
          rw [h2] at h
          simp [Bind.bind, Except.bind] at h
          obtain ⟨_, hrd⟩ := h
          subst hrd
          obtain ⟨hd2, hl2, hglen, _, _⟩ := Reader.getU16s_ok h2
          have h2len : 2 * (len / 2) = len := by omega
          rw [hd1, h2len] at hd2
          rw [List.drop_drop] at hd2
          constructor
          · rw [hd2]
            congr 1
            omega
          · omega

theorem sgParse_err {rd : Reader} {size : Nat} {e : Err}
    (h : sgParse rd size = .error e) : e.isDecodeError := by
  unfold sgParse at h
  cases h1 : rd.getU16 with
  | error e1 =>
    rw [h1] at h
    simp [Bind.bind, Except.bind] at h
    subst h
    exact Reader.getU16_err h1
  | ok nrd =>
    obtain ⟨len, rd1⟩ := nrd
    rw [h1] at h
    simp only [Bind.bind, Except.bind] at h
    split at h
    next =>
      simp at h
      subst h
      rfl
    next =>
      split at h
      next =>
        simp at h
        subst h
        rfl
      next =>
        cases h2 : rd1.getU16s (len / 2) with
        | error e2 =>
          rw [h2] at h
          simp [Bind.bind, Except.bind] at h
          subst h
          exact Reader.getU16s_err h2
        | ok grd =>
          obtain ⟨gs, rd2⟩ := grd
          rw [h2] at h
          simp [Bind.bind, Except.bind] at h

/-- The `Supported_Point_Formats` scan over `k` remaining formats
consumes exactly `k` bytes. -/
theorem spfLoop_ok {k : Nat} {rd rd' : Reader} {pc : Bool}
    (h : spfLoop k rd = .ok (pc, rd')) :
    rd'.data = rd.data.drop k ∧ rd.data.length = rd'.data.length + k := by
  induction k generalizing rd with
  | zero =>
    simp [spfLoop] at h
    obtain ⟨_, hrd⟩ := h
    subst hrd
    simp
  | succ j ih =>
    rw [spfLoop] at h
    cases h1 : rd.getByte with
    | error e1 => rw [h1] at h; simp [Bind.bind, Except.bind] at h
    | ok frd =>
      obtain ⟨f, rd1⟩ := frd
      rw [h1] at h
      simp only [Bind.bind, Except.bind] at h
      obtain ⟨hd1, hl1, _⟩ := Reader.getByte_ok h1
      have step : ∀ rd2 : Reader, rd1.discardNext j = Except.ok rd2 → rd2 = rd' →
          rd'.data = rd.data.drop (j + 1) ∧ rd.data.length = rd'.data.length + (j + 1) := by
        intro rd2 h2 hrd
        subst hrd
        obtain ⟨hd2, hl2⟩ := Reader.discardNext_ok h2
        rw [hd1] at hd2
        rw [List.drop_drop] at hd2
        exact ⟨by rw [hd2]; congr 1; omega, by omega⟩
      split at h
      next =>
        cases h2 : rd1.discardNext j with
        | error e2 => rw [h2] at h; simp [Bind.bind, Except.bind] at h
        | ok rd2 =>
          rw [h2] at h
          simp [Bind.bind, Except.bind] at h
          exact step rd2 h2 h.2
      next =>
        split at h
        next =>
          cases h2 : rd1.discardNext j with
          | error e2 => rw [h2] at h; simp [Bind.bind, Except.bind] at h
          | ok rd2 =>
            rw [h2] at h
            simp [Bind.bind, Except.bind] at h
            exact step rd2 h2 h.2
        next =>
          obtain ⟨hd2, hl2⟩ := ih h
          rw [hd1] at hd2
          rw [List.drop_drop] at hd2
          exact ⟨by rw [hd2]; congr 1; omega, by omega⟩

theorem spfLoop_err {k : Nat} {rd : Reader} {e : Err}
    (h : spfLoop k rd = .error e) : e.isDecodeError := by
  induction k generalizing rd with
  | zero => simp [spfLoop] at h
  | succ j ih =>
    rw [spfLoop] at h
    cases h1 : rd.getByte with
    | error e1 =>
      rw [h1] at h
      simp [Bind.bind, Except.bind] at h
      subst h
      exact Reader.getByte_err h1
    | ok frd =>
      obtain ⟨f, rd1⟩ := frd
      rw [h1] at h
      simp only [Bind.bind, Except.bind] at h
      have step : ∀ e2 : Err, rd1.discardNext j = Except.error e2 → e2 = e →
          e.isDecodeError := by
        intro e2 h2 he
        subst he
        exact Reader.discardNext_err h2
      split at h
      next =>
        cases h2 : rd1.discardNext j with
        | error e2 =>
          rw [h2] at h
          simp [Bind.bind, Except.bind] at h
          exact step e2 h2 h
        | ok rd2 => rw [h2] at h; simp [Bind.bind, Except.bind] at h
      next =>
        split at h
        next =>
          cases h2 : rd1.discardNext j with
          | error e2 =>
            rw [h2] at h
            simp [Bind.bind, Except.bind] at h
            exact step e2 h2 h
          | ok rd2 => rw [h2] at h; simp [Bind.bind, Except.bind] at h
        next => exact ih h

/-- `Supported_Point_Formats` parsing consumes exactly the declared size. -/
theorem spfParse_ok {rd rd' : Reader} {size : Nat} {e : Ext}
    (h : spfParse rd size = .ok (e, rd')) :
    rd'.data = rd.data.drop size ∧ rd.data.length = rd'.data.length + size := by
  unfold spfParse at h
  cases h1 : rd.getByte with
  | error e1 => rw [h1] at h; simp [Bind.bind, Except.bind] at h
  | ok lrd =>
    obtain ⟨len, rd1⟩ := lrd
    rw [h1] at h
    simp only [Bind.bind, Except.bind] at h
    obtain ⟨hd1, hl1, _⟩ := Reader.getByte_ok h1
    split at h
    next => simp at h
    next hchk =>
      cases h2 : spfLoop len rd1 with
      | error e2 => rw [h2] at h; simp [Bind.bind, Except.bind] at h
      | ok prd =>
        obtain ⟨pc, rd2⟩ := prd
        rw [h2] at h
        simp [Bind.bind, Except.bind] at h
        obtain ⟨_, hrd⟩ := h
        subst hrd
        obtain ⟨hd2, hl2⟩ := spfLoop_ok h2
        rw [hd1] at hd2
        rw [List.drop_drop] at hd2
        exact ⟨by rw [hd2]; congr 1; omega, by omega⟩

theorem spfParse_err {rd : Reader} {size : Nat} {e : Err}
    (h : spfParse rd size = .error e) : e.isDecodeError := by
  unfold spfParse at h
  cases h1 : rd.getByte with
  | error e1 =>
    rw [h1] at h
    simp [Bind.bind, Except.bind] at h
    subst h
    exact Reader.getByte_err h1
  | ok lrd =>
    obtain ⟨len, rd1⟩ := lrd
    rw [h1] at h
    simp only [Bind.bind, Except.bind] at h
    split at h
    next =>
      simp at h
      subst h
      rfl
    next =>
      cases h2 : spfLoop len rd1 with
      | error e2 =>
        rw [h2] at h
        simp [Bind.bind, Except.bind] at h
        subst h
        exact spfLoop_err h2
      | ok prd =>
        obtain ⟨pc, rd2⟩ := prd
        rw [h2] at h
        simp [Bind.bind, Except.bind] at h

/-- `Renegotiation_Extension` parsing consumes exactly the declared size. -/
theorem renegParse_ok {rd rd' : Reader} {size : Nat} {e : Ext}
    (h : renegParse rd size = .ok (e, rd')) :
    rd'.data = rd.data.drop size ∧ rd.data.length = rd'.data.length + size := by
  unfold renegParse at h
  cases h1 : rd.getRangeU8 1 0 255 with
  | error e1 => rw [h1] at h; simp [Bind.bind, Except.bind] at h
  | ok drd =>
    obtain ⟨d, rd1⟩ := drd
    rw [h1] at h
    simp only [Bind.bind, Except.bind] at h
    split at h
    next => simp at h
    next hchk =>
      simp at h
      obtain ⟨_, hrd⟩ := h
      subst hrd
      obtain ⟨hd1, hl1, _, _, _, _⟩ := Reader.getRangeU8_ok h1
      exact ⟨by rw [hd1]; congr 1; omega, by omega⟩

theorem renegParse_err {rd : Reader} {size : Nat} {e : Err}
    (h : renegParse rd size = .error e) : e.isDecodeError := by
  unfold renegParse at h
  cases h1 : rd.getRangeU8 1 0 255 with
  | error e1 =>
    rw [h1] at h
    simp [Bind.bind, Except.bind] at h
    subst h
    exact Reader.getRangeU8_err h1
  | ok drd =>
    obtain ⟨d, rd1⟩ := drd
    rw [h1] at h
    simp only [Bind.bind, Except.bind] at h
    split at h
    next =>
      simp at h
      subst h
      rfl
    next => simp at h

/-- The `Signature_Algorithms` scheme loop consumes a byte count
congruent mod 2^16 to the initial `uint16_t len` counter. -/
theorem sigAlgsLoop_ok {fuel : Nat} {rd rd' : Reader} {len : Nat} {ss : List Nat}
    (h : sigAlgsLoop fuel rd len = .ok (ss, rd')) :
    rd'.data <:+ rd.data ∧
      (rd.data.length - rd'.data.length) % 65536 = len % 65536 := by
  induction fuel generalizing rd len ss with
  | zero => simp [sigAlgsLoop] at h
  | succ f ih =>
    rw [sigAlgsLoop] at h
    split at h
    next hlen =>
      simp at h
      obtain ⟨_, hrd⟩ := h
      subst hlen hrd
      simp
    next hlen =>
      cases h1 : rd.getU16 with
      | error e1 => rw [h1] at h; simp [Bind.bind, Except.bind] at h
      | ok srd =>
        obtain ⟨v, rd1⟩ := srd
        rw [h1] at h
        simp only [Bind.bind, Except.bind] at h
        obtain ⟨hd1, hl1, _⟩ := Reader.getU16_ok h1
        cases h2 : sigAlgsLoop f rd1 ((len + 65536 - 2) % 65536) with
        | error e2 => rw [h2] at h; simp [Bind.bind, Except.bind] at h
        | ok ssrd =>
          obtain ⟨ss1, rd2⟩ := ssrd
          rw [h2] at h
          simp [Bind.bind, Except.bind] at h
          obtain ⟨_, hrd⟩ := h
          subst hrd
          obtain ⟨hsuf, hc⟩ := ih h2
          have hle : rd2.data.length ≤ rd1.data.length := hsuf.length_le
          refine ⟨?_, by omega⟩
          have s1 : rd1.data <:+ rd.data := by rw [hd1]; exact List.drop_suffix _ _
          exact hsuf.trans s1

theorem sigAlgsLoop_err {fuel : Nat} {rd : Reader} {len : Nat} {e : Err}
    (hfuel : rd.data.length + 1 ≤ fuel)
    (h : sigAlgsLoop fuel rd len = .error e) : e.isDecodeError := by
  induction fuel generalizing rd len with
  | zero => omega
  | succ f ih =>
    rw [sigAlgsLoop] at h
    split at h
    next => simp at h
    next hlen =>
      cases h1 : rd.getU16 with
      | error e1 =>
        rw [h1] at h
        simp [Bind.bind, Except.bind] at h
        subst h
        exact Reader.getU16_err h1
      | ok srd =>
        obtain ⟨v, rd1⟩ := srd
        rw [h1] at h
        simp only [Bind.bind, Except.bind] at h
        obtain ⟨hd1, hl1, _⟩ := Reader.getU16_ok h1
        cases h2 : sigAlgsLoop f rd1 ((len + 65536 - 2) % 65536) with
        | error e2 =>
          rw [h2] at h
          simp [Bind.bind, Except.bind] at h
          subst h
          exact ih (by omega) h2
        | ok ssrd => rw [h2] at h; simp [Bind.bind, Except.bind] at h

/-- `Signature_Algorithms` parsing consumes exactly the declared size. -/
theorem sigAlgsParse_ok {rd rd' : Reader} {size : Nat} {e : Ext}
    (hlen : rd.data.length < 65536)
    (h : sigAlgsParse rd size = .ok (e, rd')) :
    rd'.data = rd.data.drop size ∧ rd.data.length = rd'.data.length + size := by
  unfold sigAlgsParse at h
  cases h1 : rd.getU16 with
  | error e1 => rw [h1] at h; simp [Bind.bind, Except.bind] at h
  | ok nrd =>
    obtain ⟨len, rd1⟩ := nrd
    rw [h1] at h
    simp only [Bind.bind, Except.bind] at h
    obtain ⟨hd1, hl1, hnb⟩ := Reader.getU16_ok h1
    split at h
    next => simp at h
    next hchk =>
      cases h2 : sigAlgsLoop (rd1.remaining + 1) rd1 len with
      | error e2 => rw [h2] at h; simp [Bind.bind, Except.bind] at h
      | ok ssrd =>
        obtain ⟨ss, rd2⟩ := ssrd
        rw [h2] at h
        simp [Bind.bind, Except.bind] at h
        obtain ⟨_, hrd⟩ := h
        subst hrd
        obtain ⟨hsuf, hc⟩ := sigAlgsLoop_ok h2
        have hle : rd2.data.length ≤ rd1.data.length := hsuf.length_le
        simp at hchk
        have hcons : rd1.data.length - rd2.data.length = len := by omega
        have hlen2 : rd.data.length = rd2.data.length + size := by omega
        refine ⟨?_, hlen2⟩
        have hs : rd2.data <:+ rd.data := by
          have s1 : rd1.data <:+ rd.data := by rw [hd1]; exact List.drop_suffix _ _
          exact hsuf.trans s1
        have hsz2 : rd.data.length - rd2.data.length = size := by omega
        rw [← hsz2]
        exact suffix_eq_drop hs

theorem sigAlgsParse_err {rd : Reader} {size : Nat} {e : Err}
    (h : sigAlgsParse rd size = .error e) : e.isDecodeError := by
  unfold sigAlgsParse at h
  cases h1 : rd.getU16 with
  | error e1 =>
    rw [h1] at h
    simp [Bind.bind, Except.bind] at h
    subst h
    exact Reader.getU16_err h1
  | ok nrd =>
    obtain ⟨len, rd1⟩ := nrd
    rw [h1] at h
    simp only [Bind.bind, Except.bind] at h
    split at h
    next =>
      simp at h
      subst h
      rfl
    next =>
      cases h2 : sigAlgsLoop (rd1.remaining + 1) rd1 len with
      | error e2 =>
        rw [h2] at h
        simp [Bind.bind, Except.bind] at h
        subst h
        exact sigAlgsLoop_err (by simp [Reader.remaining]) h2
      | ok ssrd =>
        obtain ⟨ss, rd2⟩ := ssrd
        rw [h2] at h
        simp [Bind.bind, Except.bind] at h

/-- `Session_Ticket` parsing consumes exactly the declared size. -/
theorem stParse_ok {rd rd' : Reader} {size : Nat} {e : Ext}
    (h : stParse rd size = .ok (e, rd')) :
    rd'.data = rd.data.drop size ∧ rd.data.length = rd'.data.length + size := by
  unfold stParse at h
  cases h1 : rd.getFixed size with
  | error e1 => rw [h1] at h; simp [Bind.bind, Except.bind] at h
  | ok trd =>
    obtain ⟨t, rd1⟩ := trd
    rw [h1] at h
    simp [Bind.bind, Except.bind] at h
    obtain ⟨_, hrd⟩ := h
    subst hrd
    obtain ⟨hd, hl, _, _, _⟩ := Reader.getFixed_ok h1
    exact ⟨hd, hl⟩

theorem stParse_err {rd : Reader} {size : Nat} {e : Err}
    (h : stParse rd size = .error e) : e.isDecodeError := by
  unfold stParse at h
  cases h1 : rd.getFixed size with
  | error e1 =>
    rw [h1] at h
    simp [Bind.bind, Except.bind] at h
    subst h
    exact Reader.getFixed_err h1
  | ok trd =>
    obtain ⟨t, rd1⟩ := trd
    rw [h1] at h
    simp [Bind.bind, Except.bind] at h

/-- `SRTP_Protection_Profiles` parsing consumes exactly the declared size. -/
theorem srtpParse_ok {rd rd' : Reader} {size : Nat} {e : Ext}
    (h : srtpParse rd size = .ok (e, rd')) :
    rd'.data = rd.data.drop size ∧ rd.data.length = rd'.data.length + size := by
  unfold srtpParse at h
  cases h1 : rd.getRangeU16 2 0 65535 with
  | error e1 => rw [h1] at h; simp [Bind.bind, Except.bind] at h
  | ok prd =>
    obtain ⟨pp, rd1⟩ := prd
    rw [h1] at h
    simp only [Bind.bind, Except.bind] at h
    cases h2 : rd1.getRangeU8 1 0 255 with
    | error e2 => rw [h2] at h; simp [Bind.bind, Except.bind] at h
    | ok mrd =>
      obtain ⟨mki, rd2⟩ := mrd
      rw [h2] at h
      simp only [Bind.bind, Except.bind] at h
      split at h
      next => simp at h
      next hchk =>
        split at h
        next => simp at h
        next hmki =>
          simp at h
          obtain ⟨_, hrd⟩ := h
          subst hrd
          obtain ⟨hd1, hl1, _, _, _⟩ := Reader.getRangeU16_ok h1
          obtain ⟨hd2, hl2, _, _, _, _⟩ := Reader.getRangeU8_ok h2
          rw [hd1] at hd2
          rw [List.drop_drop] at hd2
          refine ⟨?_, by omega⟩
          rw [hd2]
          congr 1
          omega

theorem srtpParse_err {rd : Reader} {size : Nat} {e : Err}
    (h : srtpParse rd size = .error e) : e.isDecodeError := by
  unfold srtpParse at h
  cases h1 : rd.getRangeU16 2 0 65535 with
  | error e1 =>
    rw [h1] at h
    simp [Bind.bind, Except.bind] at h
    subst h
    exact Reader.getRangeU16_err h1
  | ok prd =>
    obtain ⟨pp, rd1⟩ := prd
    rw [h1] at h
    simp only [Bind.bind, Except.bind] at h
    cases h2 : rd1.getRangeU8 1 0 255 with
    | error e2 =>
      rw [h2] at h
      simp [Bind.bind, Except.bind] at h
      subst h
      exact Reader.getRangeU8_err h2
    | ok mrd =>
      obtain ⟨mki, rd2⟩ := mrd
      rw [h2] at h
      simp only [Bind.bind, Except.bind] at h
      split at h
      next =>
        simp at h
        subst h
        rfl
      next =>
        split at h
        next =>
          simp at h
          subst h
          rfl
        next => simp at h

/-- `Extended_Master_Secret` parsing consumes exactly the declared size. -/
theorem emsParse_ok {rd rd' : Reader} {size : Nat} {e : Ext}
    (h : emsParse rd size = .ok (e, rd')) :
    rd'.data = rd.data.drop size ∧ rd.data.length = rd'.data.length + size := by
  unfold emsParse at h
  split at h
  next => simp at h
  next hsz =>
    simp at h
    obtain ⟨_, hrd⟩ := h
    subst hrd
    simp at hsz
    subst hsz
    simp

theorem emsParse_err {rd : Reader} {size : Nat} {e : Err}
    (h : emsParse rd size = .error e) : e.isDecodeError := by
  unfold emsParse at h
  split at h
  · simp at h; subst h; rfl
  · simp at h

/-- `Encrypt_then_MAC` parsing consumes exactly the declared size. -/
theorem etmParse_ok {rd rd' : Reader} {size : Nat} {e : Ext}
    (h : etmParse rd size = .ok (e, rd')) :
    rd'.data = rd.data.drop size ∧ rd.data.length = rd'.data.length + size := by
  unfold etmParse at h
  split at h
  next => simp at h
  next hsz =>
    simp at h
    obtain ⟨_, hrd⟩ := h
    subst hrd
    simp at hsz
    subst hsz
    simp

theorem etmParse_err {rd : Reader} {size : Nat} {e : Err}
    (h : etmParse rd size = .error e) : e.isDecodeError := by
  unfold etmParse at h
  split at h
  · simp at h; subst h; rfl
  · simp at h

/-- The ALPN protocol-name loop consumes exactly `bytesRemaining`
bytes on success. -/
theorem alpnLoop_ok {fuel : Nat} {rd rd' : Reader} {br : Nat} {ps : List (List Nat)}
    (h : alpnLoop fuel rd br = .ok (ps, rd')) :
    rd'.data <:+ rd.data ∧ rd.data.length = rd'.data.length + br := by
  induction fuel generalizing rd br ps with
  | zero => simp [alpnLoop] at h
  | succ f ih =>
    rw [alpnLoop] at h
    split at h
    next hbr =>
      simp at h
      obtain ⟨_, hrd⟩ := h
      subst hbr hrd
      simp
    next hbr =>
      cases h1 : rd.getString 1 0 255 with
      | error e1 => rw [h1] at h; simp [Bind.bind, Except.bind] at h
      | ok prd =>
        obtain ⟨p, rd1⟩ := prd
        rw [h1] at h
        simp only [Bind.bind, Except.bind] at h
        obtain ⟨hd1, hl1, _, _⟩ := Reader.getString_ok h1
        split at h
        next => simp at h
        next hbound =>
          split at h
          next => simp at h
          next hne =>
            cases h2 : alpnLoop f rd1 (br - (p.length + 1)) with
            | error e2 => rw [h2] at h; simp [Bind.bind, Except.bind] at h
            | ok psrd =>
              obtain ⟨ps1, rd2⟩ := psrd
              rw [h2] at h
              simp [Bind.bind, Except.bind] at h
              obtain ⟨_, hrd⟩ := h
              subst hrd
              obtain ⟨hsuf, hlen2⟩ := ih h2
              refine ⟨?_, by omega⟩
              have s1 : rd1.data <:+ rd.data := by rw [hd1]; exact List.drop_suffix _ _
              exact hsuf.trans s1

theorem alpnLoop_err {fuel : Nat} {rd : Reader} {br : Nat} {e : Err}
    (hfuel : rd.data.length + 1 ≤ fuel)
    (h : alpnLoop fuel rd br = .error e) : e.isDecodeError := by
  induction fuel generalizing rd br with
  | zero => omega
  | succ f ih =>
    rw [alpnLoop] at h
    split at h
    next => simp at h
    next hbr =>
      cases h1 : rd.getString 1 0 255 with
      | error e1 =>
        rw [h1] at h
        simp [Bind.bind, Except.bind] at h
        subst h
        exact Reader.getString_err h1
      | ok prd =>
        obtain ⟨p, rd1⟩ := prd
        rw [h1] at h
        simp only [Bind.bind, Except.bind] at h
        obtain ⟨hd1, hl1, _, _⟩ := Reader.getString_ok h1
        split at h
        next =>
          simp at h
          subst h
          rfl
        next =>
          split at h
          next =>
            simp at h
            subst h
            rfl
          next =>
            cases h2 : alpnLoop f rd1 (br - (p.length + 1)) with
            | error e2 =>
              rw [h2] at h
              simp [Bind.bind, Except.bind] at h
              subst h
              exact ih (by omega) h2
            | ok psrd => rw [h2] at h; simp [Bind.bind, Except.bind] at h

set_option maxRecDepth 4096 in
/-- `Application_Layer_Protocol_Notification` parsing consumes
exactly the declared size. -/
theorem alpnParse_ok {rd rd' : Reader} {size : Nat} {sd : Side} {e : Ext}
    (hsize : size < 65536)
    (h : alpnParse rd size sd = .ok (e, rd')) :
    rd'.data = rd.data.drop size ∧ rd.data.length = rd'.data.length + size := by
  unfold alpnParse at h
  split at h
  next hsz =>
    simp at h
    obtain ⟨_, hrd⟩ := h
    subst hsz hrd
    simp
  next hsz =>
    cases h1 : rd.getU16 with
    | error e1 => rw [h1] at h; simp [Bind.bind, Except.bind] at h
    | ok nrd =>
      obtain ⟨nb, rd1⟩ := nrd
      rw [h1] at h
      simp only [Bind.bind, Except.bind] at h
      obtain ⟨hd1, hl1, hnb⟩ := Reader.getU16_ok h1
      split at h
      next => simp at h
      next hchk =>
        cases h2 : alpnLoop (1 + rd1.remaining) rd1 ((size + 2 ^ 64 - 2) % 2 ^ 64) with
        | error e2 => rw [h2] at h; simp [Bind.bind, Except.bind] at h
        | ok psrd =>
          obtain ⟨ps, rd2⟩ := psrd
          rw [h2] at h
          simp only [Bind.bind, Except.bind] at h
          obtain ⟨hsuf, hlen2⟩ := alpnLoop_ok h2
          simp at hchk
          have h64 : (2 : Nat) ^ 64 = 18446744073709551616 := by norm_num
          have hbr : (size + 2 ^ 64 - 2) % 2 ^ 64 = size - 2 ∧ 2 ≤ size := by
            rw [h64]
            omega
          have hfin : rd'.data = rd2.data ∧ rd.data.length = rd2.data.length + size := by
            constructor
            · split at h
              next => simp at h
              next =>
                simp at h
                rw [h.2]
            · omega
          obtain ⟨hrd, hlen3⟩ := hfin
          rw [hrd]
          refine ⟨?_, hlen3⟩
          have hs : rd2.data <:+ rd.data := by
            have s1 : rd1.data <:+ rd.data := by rw [hd1]; exact List.drop_suffix _ _
            exact hsuf.trans s1
          have hsz2 : rd.data.length - rd2.data.length = size := by omega
          rw [← hsz2]
          exact suffix_eq_drop hs

set_option maxRecDepth 4096 in
theorem alpnParse_err {rd : Reader} {size : Nat} {sd : Side} {e : Err}
    (h : alpnParse rd size sd = .error e) : e.isDecodeError := by
  unfold alpnParse at h
  split at h
  next => simp at h
  next hsz =>
    cases h1 : rd.getU16 with
    | error e1 =>
      rw [h1] at h
      simp [Bind.bind, Except.bind] at h
      subst h
      exact Reader.getU16_err h1
    | ok nrd =>
      obtain ⟨nb, rd1⟩ := nrd
      rw [h1] at h
      simp only [Bind.bind, Except.bind] at h
      split at h
      next =>
        simp at h
        subst h
        rfl
      next =>
        cases h2 : alpnLoop (1 + rd1.remaining) rd1 ((size + 2 ^ 64 - 2) % 2 ^ 64) with
        | error e2 =>
          rw [h2] at h
          simp [Bind.bind, Except.bind] at h
          subst h
          exact alpnLoop_err (by simp only [Reader.remaining]; omega) h2
        | ok psrd =>
          obtain ⟨ps, rd2⟩ := psrd
          rw [h2] at h
          simp only [Bind.bind, Except.bind] at h
          split at h
          next =>
            simp at h
            subst h
            rfl
          next => simp at h

/-- `Supported_Versions` parsing consumes exactly the declared size. -/
theorem svParse_ok {rd rd' : Reader} {size : Nat} {sd : Side} {e : Ext}
    (h : svParse rd size sd = .ok (e, rd')) :
    rd'.data = rd.data.drop size ∧ rd.data.length = rd'.data.length + size := by
  unfold svParse at h
  split at h
  next hsd =>
    split at h
    next => simp at h
    next hsz =>
      simp at hsz
      subst hsz
      cases h1 : rd.getU16 with
      | error e1 => rw [h1] at h; simp [Bind.bind, Except.bind] at h
      | ok vrd =>
        obtain ⟨v, rd1⟩ := vrd
        rw [h1] at h
        simp [Bind.bind, Except.bind] at h
        obtain ⟨_, hrd⟩ := h
        subst hrd
        obtain ⟨hd1, hl1, _⟩ := Reader.getU16_ok h1
        exact ⟨hd1, hl1⟩
  next hsd =>
    cases h1 : rd.getRangeU16 1 1 127 with
    | error e1 => rw [h1] at h; simp [Bind.bind, Except.bind] at h
    | ok vrd =>
      obtain ⟨vs, rd1⟩ := vrd
      rw [h1] at h
      simp only [Bind.bind, Except.bind] at h
      split at h
      next => simp at h
      next hchk =>
        simp at h
        obtain ⟨_, hrd⟩ := h
        subst hrd
        simp at hchk
        obtain ⟨hd1, hl1, _, _, _⟩ := Reader.getRangeU16_ok h1
        refine ⟨?_, by omega⟩
        rw [hd1]
        congr 1
        omega

theorem svParse_err {rd : Reader} {size : Nat} {sd : Side} {e : Err}
    (h : svParse rd size sd = .error e) : e.isDecodeError := by
  unfold svParse at h
  split at h
  next hsd =>
    split at h
    next =>
      simp at h
      subst h
      rfl
    next =>
      cases h1 : rd.getU16 with
      | error e1 =>
        rw [h1] at h
        simp [Bind.bind, Except.bind] at h
        subst h
        exact Reader.getU16_err h1
      | ok vrd =>
        obtain ⟨v, rd1⟩ := vrd
        rw [h1] at h
        simp [Bind.bind, Except.bind] at h
  next hsd =>
    cases h1 : rd.getRangeU16 1 1 127 with
    | error e1 =>
      rw [h1] at h
      simp [Bind.bind, Except.bind] at h
      subst h
      exact Reader.getRangeU16_err h1
    | ok vrd =>
      obtain ⟨vs, rd1⟩ := vrd
      rw [h1] at h
      simp only [Bind.bind, Except.bind] at h
      split at h
      next =>
        simp at h
        subst h
        rfl
      next => simp at h

/-- `Unknown_Extension` parsing consumes exactly the declared size. -/
theorem unknownParse_ok {rd rd' : Reader} {code size : Nat} {e : Ext}
    (h : unknownParse code rd size = .ok (e, rd')) :
    rd'.data = rd.data.drop size ∧ rd.data.length = rd'.data.length + size := by
  unfold unknownParse at h
  cases h1 : rd.getFixed size with
  | error e1 => rw [h1] at h; simp [Bind.bind, Except.bind] at h
  | ok vrd =>
    obtain ⟨v, rd1⟩ := vrd
    rw [h1] at h
    simp [Bind.bind, Except.bind] at h
    obtain ⟨_, hrd⟩ := h
    subst hrd
    obtain ⟨hd, hl, _, _, _⟩ := Reader.getFixed_ok h1
    exact ⟨hd, hl⟩

theorem unknownParse_err {rd : Reader} {code size : Nat} {e : Err}
    (h : unknownParse code rd size = .error e) : e.isDecodeError := by
  unfold unknownParse at h
  cases h1 : rd.getFixed size with
  | error e1 =>
    rw [h1] at h
    simp [Bind.bind, Except.bind] at h
    subst h
    exact Reader.getFixed_err h1
  | ok vrd =>
    obtain ⟨v, rd1⟩ := vrd
    rw [h1] at h
    simp [Bind.bind, Except.bind] at h

/-- Successful monadic bind over `Except` factors through a
successful first component. -/
theorem bind_ok_iff {α β : Type} {x : Except Err α} {f : α → Except Err β} {v : β} :
    (x >>= f) = .ok v ↔ ∃ a, x = .ok a ∧ f a = .ok v := by
  cases x <;> simp [Bind.bind, Except.bind]

/-! ### Each registry branch yields a carrier of the dispatched code. -/

theorem sniParse_type {rd rd' : Reader} {size : Nat} {e : Ext}
    (h : sniParse rd size = .ok (e, rd')) : e.type = 0 := by
  unfold sniParse at h
  split at h
  next =>
    simp at h
    rw [← h.1]
    rfl
  next =>
    rw [bind_ok_iff] at h
    obtain ⟨⟨nb, rd1⟩, _, h⟩ := h
    simp only [] at h
    split at h
    next => simp at h
    next =>
      rw [bind_ok_iff] at h
      obtain ⟨⟨host, rd2⟩, _, h⟩ := h
      simp at h
      rw [← h.1]
      rfl

theorem csrParse_type {rd rd' : Reader} {size : Nat} {sd : Side} {mt : HsType} {e : Ext}
    (h : csrParse rd size sd mt = .ok (e, rd')) : e.type = 5 := by
  unfold csrParse at h
  rw [bind_ok_iff] at h
  obtain ⟨⟨blob, rd1⟩, _, h⟩ := h
  simp at h
  rw [← h.1]
  rfl

theorem sgParse_type {rd rd' : Reader} {size : Nat} {e : Ext}
    (h : sgParse rd size = .ok (e, rd')) : e.type = 10 := by
  unfold sgParse at h
  rw [bind_ok_iff] at h
  obtain ⟨⟨len, rd1⟩, _, h⟩ := h
  simp only [] at h
  split at h
  next => simp at h
  next =>
    split at h
    next => simp at h
    next =>
      rw [bind_ok_iff] at h
      obtain ⟨⟨gs, rd2⟩, _, h⟩ := h
      simp at h
      rw [← h.1]
      rfl

theorem spfParse_type {rd rd' : Reader} {size : Nat} {e : Ext}
    (h : spfParse rd size = .ok (e, rd')) : e.type = 11 := by
  unfold spfParse at h
  rw [bind_ok_iff] at h
  obtain ⟨⟨len, rd1⟩, _, h⟩ := h
  simp only [] at h
  split at h
  next => simp at h
  next =>
    rw [bind_ok_iff] at h
    obtain ⟨⟨pc, rd2⟩, _, h⟩ := h
    simp at h
    rw [← h.1]
    rfl

theorem sigAlgsParse_type {rd rd' : Reader} {size : Nat} {e : Ext}
    (h : sigAlgsParse rd size = .ok (e, rd')) : e.type = 13 := by
  unfold sigAlgsParse at h
  rw [bind_ok_iff] at h
  obtain ⟨⟨len, rd1⟩, _, h⟩ := h
  simp only [] at h
  split at h
  next => simp at h
  next =>
    rw [bind_ok_iff] at h
    obtain ⟨⟨ss, rd2⟩, _, h⟩ := h
    simp at h
    rw [← h.1]
    rfl

theorem srtpParse_type {rd rd' : Reader} {size : Nat} {e : Ext}
    (h : srtpParse rd size = .ok (e, rd')) : e.type = 14 := by
  unfold srtpParse at h
  rw [bind_ok_iff] at h
  obtain ⟨⟨pp, rd1⟩, _, h⟩ := h
  simp only [] at h
  rw [bind_ok_iff] at h
  obtain ⟨⟨mki, rd2⟩, _, h⟩ := h
  simp only [] at h
  split at h
  next => simp at h
  next =>
    split at h
    next => simp at h
    next =>
      simp at h
      rw [← h.1]
      rfl

theorem alpnParse_type {rd rd' : Reader} {size : Nat} {sd : Side} {e : Ext}
    (h : alpnParse rd size sd = .ok (e, rd')) : e.type = 16 := by
  unfold alpnParse at h
  split at h
  next =>
    simp at h
    rw [← h.1]
    rfl
  next =>
    rw [bind_ok_iff] at h
    obtain ⟨⟨nb, rd1⟩, _, h⟩ := h
    simp only [] at h
    split at h
    next => simp at h
    next =>
      rw [bind_ok_iff] at h
      obtain ⟨⟨ps, rd2⟩, _, h⟩ := h
      simp only [] at h
      split at h
      next => simp at h
      next =>
        simp at h
        rw [← h.1]
        rfl

theorem emsParse_type {rd rd' : Reader} {size : Nat} {e : Ext}
    (h : emsParse rd size = .ok (e, rd')) : e.type = 23 := by
  unfold emsParse at h
  split at h
  next => simp at h
  next =>
    simp at h
    rw [← h.1]
    rfl

theorem etmParse_type {rd rd' : Reader} {size : Nat} {e : Ext}
    (h : etmParse rd size = .ok (e, rd')) : e.type = 22 := by
  unfold etmParse at h
  split at h
  next => simp at h
  next =>
    simp at h
    rw [← h.1]
    rfl

theorem stParse_type {rd rd' : Reader} {size : Nat} {e : Ext}
    (h : stParse rd size = .ok (e, rd')) : e.type = 35 := by
  unfold stParse at h
  rw [bind_ok_iff] at h
  obtain ⟨⟨t, rd1⟩, _, h⟩ := h
  simp at h
  rw [← h.1]
  rfl

theorem svParse_type {rd rd' : Reader} {size : Nat} {sd : Side} {e : Ext}
    (h : svParse rd size sd = .ok (e, rd')) : e.type = 43 := by
  unfold svParse at h
  split at h
  next =>
    split at h
    next => simp at h
    next =>
      rw [bind_ok_iff] at h
      obtain ⟨⟨v, rd1⟩, _, h⟩ := h
      simp at h
      rw [← h.1]
      rfl
  next =>
    rw [bind_ok_iff] at h
    obtain ⟨⟨vs, rd1⟩, _, h⟩ := h
    simp only [] at h
    split at h
    next => simp at h
    next =>
      simp at h
      rw [← h.1]
      rfl

theorem renegParse_type {rd rd' : Reader} {size : Nat} {e : Ext}
    (h : renegParse rd size = .ok (e, rd')) : e.type = 65281 := by
  unfold renegParse at h
  rw [bind_ok_iff] at h
  obtain ⟨⟨d, rd1⟩, _, h⟩ := h
  simp only [] at h
  split at h
  next => simp at h
  next =>
    simp at h
    rw [← h.1]
    rfl

theorem unknownParse_type {rd rd' : Reader} {code size : Nat} {e : Ext}
    (h : unknownParse code rd size = .ok (e, rd')) : e.type = code := by
  unfold unknownParse at h
  rw [bind_ok_iff] at h
  obtain ⟨⟨v, rd1⟩, _, h⟩ := h
  simp at h
  rw [← h.1]
  rfl

/-- `make_extension` dispatch: on success it consumes exactly the
declared size and yields a carrier of the dispatched code.  The
length bounds hold wherever `Extensions::deserialize` calls it (the
reader holds at most the declared 16-bit block size). -/
theorem makeExtension_ok {rd rd' : Reader} {code size : Nat} {sd : Side} {mt : HsType}
    {e : Ext} (hlen : rd.data.length < 65536) (hsize : size < 65536)
    (h : makeExtension rd code size sd mt = .ok (e, rd')) :
    rd'.data = rd.data.drop size ∧ rd.data.length = rd'.data.length + size ∧
      e.type = code := by
  unfold makeExtension at h
  by_cases hc0 : code = 0
  · rw [if_pos hc0] at h
    obtain ⟨a, b⟩ := sniParse_ok hlen h
    exact ⟨a, b, by rw [sniParse_type h, hc0]⟩
  · rw [if_neg hc0] at h
    by_cases hc10 : code = 10
    · rw [if_pos hc10] at h
      obtain ⟨a, b⟩ := sgParse_ok h
      exact ⟨a, b, by rw [sgParse_type h, hc10]⟩
    · rw [if_neg hc10] at h
      by_cases hc5 : code = 5
      · rw [if_pos hc5] at h
        obtain ⟨a, b⟩ := csrParse_ok h
        exact ⟨a, b, by rw [csrParse_type h, hc5]⟩
      · rw [if_neg hc5] at h
        by_cases hc11 : code = 11
        · rw [if_pos hc11] at h
          obtain ⟨a, b⟩ := spfParse_ok h
          exact ⟨a, b, by rw [spfParse_type h, hc11]⟩
        · rw [if_neg hc11] at h
          by_cases hc65281 : code = 65281
          · rw [if_pos hc65281] at h
            obtain ⟨a, b⟩ := renegParse_ok h
            exact ⟨a, b, by rw [renegParse_type h, hc65281]⟩
          · rw [if_neg hc65281] at h
            by_cases hc13 : code = 13
            · rw [if_pos hc13] at h
              obtain ⟨a, b⟩ := sigAlgsParse_ok hlen h
              exact ⟨a, b, by rw [sigAlgsParse_type h, hc13]⟩
            · rw [if_neg hc13] at h
              by_cases hc14 : code = 14
              · rw [if_pos hc14] at h
                obtain ⟨a, b⟩ := srtpParse_ok h
                exact ⟨a, b, by rw [srtpParse_type h, hc14]⟩
              · rw [if_neg hc14] at h
                by_cases hc16 : code = 16
                · rw [if_pos hc16] at h
                  obtain ⟨a, b⟩ := alpnParse_ok hsize h
                  exact ⟨a, b, by rw [alpnParse_type h, hc16]⟩
                · rw [if_neg hc16] at h
                  by_cases hc23 : code = 23
                  · rw [if_pos hc23] at h
                    obtain ⟨a, b⟩ := emsParse_ok h
                    exact ⟨a, b, by rw [emsParse_type h, hc23]⟩
                  · rw [if_neg hc23] at h
                    by_cases hc22 : code = 22
                    · rw [if_pos hc22] at h
                      obtain ⟨a, b⟩ := etmParse_ok h
                      exact ⟨a, b, by rw [etmParse_type h, hc22]⟩
                    · rw [if_neg hc22] at h
                      by_cases hc35 : code = 35
                      · rw [if_pos hc35] at h
                        obtain ⟨a, b⟩ := stParse_ok h
                        exact ⟨a, b, by rw [stParse_type h, hc35]⟩
                      · rw [if_neg hc35] at h
                        by_cases hc43 : code = 43
                        · rw [if_pos hc43] at h
                          obtain ⟨a, b⟩ := svParse_ok h
                          exact ⟨a, b, by rw [svParse_type h, hc43]⟩
                        · rw [if_neg hc43] at h
                          obtain ⟨a, b⟩ := unknownParse_ok h
                          exact ⟨a, b, unknownParse_type h⟩

/-- Every failure of `make_extension` is decode-kind: the registry
carriers throw only `Decoding_Error`s and `DECODE_ERROR` alerts. -/
theorem makeExtension_err {rd : Reader} {code size : Nat} {sd : Side} {mt : HsType}
    {e : Err} (h : makeExtension rd code size sd mt = .error e) :
    e.isDecodeError := by
  unfold makeExtension at h
  by_cases hc0 : code = 0
  · rw [if_pos hc0] at h
    exact sniParse_err h
  · rw [if_neg hc0] at h
    by_cases hc10 : code = 10
    · rw [if_pos hc10] at h
      exact sgParse_err h
    · rw [if_neg hc10] at h
      by_cases hc5 : code = 5
      · rw [if_pos hc5] at h
        exact csrParse_err h
      · rw [if_neg hc5] at h
        by_cases hc11 : code = 11
        · rw [if_pos hc11] at h
          exact spfParse_err h
        · rw [if_neg hc11] at h
          by_cases hc65281 : code = 65281
          · rw [if_pos hc65281] at h
            exact renegParse_err h
          · rw [if_neg hc65281] at h
            by_cases hc13 : code = 13
            · rw [if_pos hc13] at h
              exact sigAlgsParse_err h
            · rw [if_neg hc13] at h
              by_cases hc14 : code = 14
              · rw [if_pos hc14] at h
                exact srtpParse_err h
              · rw [if_neg hc14] at h
                by_cases hc16 : code = 16
                · rw [if_pos hc16] at h
                  exact alpnParse_err h
                · rw [if_neg hc16] at h
                  by_cases hc23 : code = 23
                  · rw [if_pos hc23] at h
                    exact emsParse_err h
                  · rw [if_neg hc23] at h
                    by_cases hc22 : code = 22
                    · rw [if_pos hc22] at h
                      exact etmParse_err h
                    · rw [if_neg hc22] at h
                      by_cases hc35 : code = 35
                      · rw [if_pos hc35] at h
                        exact stParse_err h
                      · rw [if_neg hc35] at h
                        by_cases hc43 : code = 43
                        · rw [if_pos hc43] at h
                          exact svParse_err h
                        · rw [if_neg hc43] at h
                          exact unknownParse_err h
/-- The framing relation behind `parseTriples`: a byte sequence is
cut into `(code, size, payload)` triples by the declared sizes. -/
inductive TriplesOf : List Nat → List (Nat × Nat × List Nat) → Prop
  | nil : TriplesOf [] []
  | cons {b0 b1 b2 b3 : Nat} {rest : List Nat} {ts : List (Nat × Nat × List Nat)} :
      256 * (b2 % 256) + b3 % 256 ≤ rest.length →
      TriplesOf (rest.drop (256 * (b2 % 256) + b3 % 256)) ts →
      TriplesOf (b0 :: b1 :: b2 :: b3 :: rest)
        ((256 * (b0 % 256) + b1 % 256, 256 * (b2 % 256) + b3 % 256,
          rest.take (256 * (b2 % 256) + b3 % 256)) :: ts)

/-- A successful `subTriples` run realizes the framing relation. -/
theorem subTriples_toRel {fuel : Nat} {b : List Nat} {ts : List (Nat × Nat × List Nat)}
    (h : subTriples fuel b = .ok ts) : TriplesOf b ts := by
  induction fuel generalizing b ts with
  | zero => simp [subTriples] at h
  | succ f ih =>
    match b, h with
    | [], h =>
      simp [subTriples] at h
      subst h
      exact .nil
    | [x], h => simp [subTriples] at h
    | [x, y], h => simp [subTriples] at h
    | [x, y, z], h => simp [subTriples] at h
    | b0 :: b1 :: b2 :: b3 :: rest, h =>
      rw [show subTriples (f + 1) (b0 :: b1 :: b2 :: b3 :: rest) =
        (if 256 * (b2 % 256) + b3 % 256 ≤ rest.length then do
          let ts ← subTriples f (rest.drop (256 * (b2 % 256) + b3 % 256))
          Except.ok ((256 * (b0 % 256) + b1 % 256, 256 * (b2 % 256) + b3 % 256,
            rest.take (256 * (b2 % 256) + b3 % 256)) :: ts)
        else Except.error (Err.decodingError "truncated extension payload")) from rfl] at h
      split at h
      next hsz =>
        cases h2 : subTriples f (rest.drop (256 * (b2 % 256) + b3 % 256)) with
        | error e2 => rw [h2] at h; simp [Bind.bind, Except.bind] at h
        | ok ts1 =>
          rw [h2] at h
          simp [Bind.bind, Except.bind] at h
          subst h
          exact .cons hsz (ih h2)
      next => simp at h

/-- A successful `parseTriples` run either sees an empty input or a
length-prefixed block realizing the framing relation. -/
theorem parseTriples_toRel {b : List Nat} {ts : List (Nat × Nat × List Nat)}
    (h : parseTriples b = .ok ts) :
    (b = [] ∧ ts = []) ∨
      ∃ b0 b1 rest, b = b0 :: b1 :: rest ∧
        rest.length = 256 * (b0 % 256) + b1 % 256 ∧ TriplesOf rest ts := by
  unfold parseTriples at h
  match b, h with
  | [], h =>
    simp at h
    subst h
    exact .inl ⟨rfl, rfl⟩
  | [x], h => simp at h
  | b0 :: b1 :: rest, h =>
    simp only [] at h
    split at h
    next hl => exact .inr ⟨b0, b1, rest, rfl, hl, subTriples_toRel h⟩
    next => simp at h

namespace Extensions

/-- `has` is membership of the code among the carried types. -/
theorem has_iff {c : Extensions} {code : Nat} :
    c.has code = true ↔ ∃ e ∈ c.exts, e.type = code := by
  unfold has
  rw [List.any_eq_true]
  constructor
  · rintro ⟨e, he, hq⟩
    exact ⟨e, he, by simpa using hq⟩
  · rintro ⟨e, he, hq⟩
    exact ⟨e, he, by simpa using hq⟩

theorem has_append {c : Extensions} {x : Ext} {code : Nat} :
    Extensions.has ⟨c.exts ++ [x]⟩ code = (c.has code || (x.type == code)) := by
  unfold has
  simp

/-- Any failure of the deserialization loop is decode-kind: header
reads, the duplicate check, and every carrier constructor fail only
with decode errors, and the guarded `add` cannot fail. -/
theorem deserCore_err {fuel : Nat} {c : Extensions} {rd : Reader} {sd : Side}
    {mt : HsType} {e : Err}
    (hfuel : rd.data.length + 1 ≤ fuel) (hlen : rd.data.length < 65536)
    (h : Extensions.deserCore fuel c rd sd mt = .error e) : e.isDecodeError := by
  induction fuel generalizing c rd with
  | zero => omega
  | succ f ih =>
    rw [Extensions.deserCore] at h
    split at h
    next hrem =>
      cases h1 : rd.getU16 with
      | error e1 =>
        rw [h1] at h
        simp [Bind.bind, Except.bind] at h
        subst h
        exact Reader.getU16_err h1
      | ok crd =>
        obtain ⟨code, rd1⟩ := crd
        rw [h1] at h
        simp only [Bind.bind, Except.bind] at h
        cases h2 : rd1.getU16 with
        | error e2 =>
          rw [h2] at h
          simp [Bind.bind, Except.bind] at h
          subst h
          exact Reader.getU16_err h2
        | ok srd =>
          obtain ⟨size, rd2⟩ := srd
          rw [h2] at h
          simp only [Bind.bind, Except.bind] at h
          split at h
          next hdup =>
            simp at h
            subst h
            rfl
          next hdup =>
            cases h3 : makeExtension rd2 code size sd mt with
            | error e3 =>
              rw [h3] at h
              simp [Bind.bind, Except.bind] at h
              subst h
              exact makeExtension_err h3
            | ok erd =>
              obtain ⟨ext, rd3⟩ := erd
              rw [h3] at h
              simp only [Bind.bind, Except.bind] at h
              obtain ⟨hd1, hl1, _⟩ := Reader.getU16_ok h1
              obtain ⟨hd2, hl2, hsz⟩ := Reader.getU16_ok h2
              obtain ⟨hd3, hl3, htype⟩ := makeExtension_ok (by omega) hsz h3
              have hadd : c.add ext = .ok ⟨c.exts ++ [ext]⟩ := by
                unfold add
                rw [htype, if_neg hdup]
              rw [hadd] at h
              simp only [Bind.bind, Except.bind] at h
              exact ih (by omega) (by omega) h
    next => simp at h

/-- The deserialization loop preserves duplicate-freeness of the
carried codes: a wire code already present is rejected before `add`,
and `make_extension` returns a carrier of the dispatched code. -/
theorem deserCore_nodup {fuel : Nat} {c c' : Extensions} {rd rd' : Reader} {sd : Side}
    {mt : HsType}
    (hlen : rd.data.length < 65536)
    (hnd : (c.exts.map Ext.type).Nodup)
    (h : Extensions.deserCore fuel c rd sd mt = .ok (c', rd')) :
    (c'.exts.map Ext.type).Nodup := by
  induction fuel generalizing c rd with
  | zero => simp [Extensions.deserCore] at h
  | succ f ih =>
    rw [Extensions.deserCore] at h
    split at h
    next hrem =>
      cases h1 : rd.getU16 with
      | error e1 => rw [h1] at h; simp [Bind.bind, Except.bind] at h
      | ok crd =>
        obtain ⟨code, rd1⟩ := crd
        rw [h1] at h
        simp only [Bind.bind, Except.bind] at h
        cases h2 : rd1.getU16 with
        | error e2 => rw [h2] at h; simp [Bind.bind, Except.bind] at h
        | ok srd =>
          obtain ⟨size, rd2⟩ := srd
          rw [h2] at h
          simp only [Bind.bind, Except.bind] at h
          split at h
          next hdup => simp at h
          next hdup =>
            cases h3 : makeExtension rd2 code size sd mt with
            | error e3 => rw [h3] at h; simp [Bind.bind, Except.bind] at h
            | ok erd =>
              obtain ⟨ext, rd3⟩ := erd
              rw [h3] at h
              simp only [Bind.bind, Except.bind] at h
              obtain ⟨hd1, hl1, _⟩ := Reader.getU16_ok h1
              obtain ⟨hd2, hl2, hsz⟩ := Reader.getU16_ok h2
              obtain ⟨hd3, hl3, htype⟩ := makeExtension_ok (by omega) hsz h3
              have hadd : c.add ext = .ok ⟨c.exts ++ [ext]⟩ := by
                unfold add
                rw [htype, if_neg hdup]
              rw [hadd] at h
              simp only [Bind.bind, Except.bind] at h
              refine ih (c := ⟨c.exts ++ [ext]⟩) (by omega) ?_ h
              simp only [List.map_append, List.map_cons, List.map_nil]
              rw [List.nodup_append]
              refine ⟨hnd, List.nodup_singleton _, ?_⟩
              intro x hx hx1
              simp at hx1
              subst hx1
              apply hdup
              rw [htype] at hx
              exact has_iff.mpr (by
                obtain ⟨y, hy, hyt⟩ := List.mem_map.mp hx
                exact ⟨y, hy, hyt⟩)
    next =>
      simp at h
      obtain ⟨hc, _⟩ := h
      subst hc
      exact hnd

/-- When the deserialization loop succeeds, the `(code, size,
payload)` framing of its input has pairwise-distinct codes, none of
which was already present in the container: each carrier consumes
exactly its declared size, so the loop walks exactly the declared
triples, and the duplicate guard rejects any repeat. -/
theorem deserCore_triples {fuel : Nat} {c c' : Extensions} {rd rd' : Reader} {sd : Side}
    {mt : HsType} {ts : List (Nat × Nat × List Nat)}
    (hlen : rd.data.length < 65536)
    (h : Extensions.deserCore fuel c rd sd mt = .ok (c', rd'))
    (ht : TriplesOf rd.data ts) :
    (ts.map (fun t => t.1)).Nodup ∧ ∀ t ∈ ts, c.has t.1 = false := by
  induction fuel generalizing c rd ts with
  | zero => simp [Extensions.deserCore] at h
  | succ f ih =>
    rw [Extensions.deserCore] at h
    split at h
    next hrem =>
      cases h1 : rd.getU16 with
      | error e1 => rw [h1] at h; simp [Bind.bind, Except.bind] at h
      | ok crd =>
        obtain ⟨code, rd1⟩ := crd
        rw [h1] at h
        simp only [Bind.bind, Except.bind] at h
        cases h2 : rd1.getU16 with
        | error e2 => rw [h2] at h; simp [Bind.bind, Except.bind] at h
        | ok srd =>
          obtain ⟨size, rd2⟩ := srd
          rw [h2] at h
          simp only [Bind.bind, Except.bind] at h
          split at h
          next hdup => simp at h
          next hdup =>
            cases h3 : makeExtension rd2 code size sd mt with
            | error e3 => rw [h3] at h; simp [Bind.bind, Except.bind] at h
            | ok erd =>
              obtain ⟨ext, rd3⟩ := erd
              rw [h3] at h
              simp only [Bind.bind, Except.bind] at h
              obtain ⟨hd1, hl1, _⟩ := Reader.getU16_ok h1
              obtain ⟨hd2, hl2, hsz⟩ := Reader.getU16_ok h2
              obtain ⟨a0, a1, hdec1, hv1⟩ := Reader.getU16_ok_decomp h1
              obtain ⟨a2, a3, hdec2, hv2⟩ := Reader.getU16_ok_decomp h2
              obtain ⟨hd3, hl3, htype⟩ := makeExtension_ok (by omega) hsz h3
              have hadd : c.add ext = .ok ⟨c.exts ++ [ext]⟩ := by
                unfold add
                rw [htype, if_neg hdup]
              rw [hadd] at h
              simp only [Bind.bind, Except.bind] at h
              rw [hdec2] at hdec1
              rw [hdec1] at ht
              cases ht with
              | cons hszle htail =>
                rw [← hv2] at htail
                rw [← hd3] at htail
                obtain ⟨hnd', hfresh'⟩ := ih (c := ⟨c.exts ++ [ext]⟩) (by omega) h htail
                constructor
                · simp only [List.map_cons]
                  rw [List.nodup_cons]
                  refine ⟨?_, hnd'⟩
                  intro hmem
                  obtain ⟨t, htmem, htcode⟩ := List.mem_map.mp hmem
                  have := hfresh' t htmem
                  rw [has_append] at this
                  simp at this
                  obtain ⟨_, hne⟩ := this
                  rw [htype, htcode, ← hv1] at hne
                  exact hne rfl
                · intro t htmem
                  simp at htmem
                  rcases htmem with htmem | htmem
                  · rw [htmem]
                    simp only []
                    rw [← hv1]
                    exact Bool.not_eq_true _ ▸ (by simpa using hdup)
                  · have := hfresh' t htmem
                    rw [has_append] at this
                    simp at this
                    exact this.1
    next hrem =>
      have hdata : rd.data = [] := by
        unfold Reader.hasRemaining at hrem
        simp at hrem
        exact hrem
      rw [hdata] at ht
      cases ht
      exact ⟨List.nodup_nil, by intro t htmem; simp at htmem⟩

end Extensions

/-- One wire entry of the extensions block: the 2-byte code, the
2-byte payload length, then the payload (the 16-bit casts of the
source made explicit). -/
def extEntry (whoami : Side) (e : Ext) : Except Err (List Nat) := do
  let v ← e.serialize whoami
  .ok (u16be (e.type % 65536) ++ u16be (v.length % 65536) ++ v)

/-- The body of the serialized extensions block as §4.D of the spec
words it: one `(code, payload_len, payload)` entry per extension
whose payload is non-empty, in container order. -/
def serializeBody (whoami : Side) : List Ext → Except Err (List Nat)
  | [] => .ok []
  | e :: es =>
    if e.empty then serializeBody whoami es
    else do
      let entry ← extEntry whoami e
      let rest ← serializeBody whoami es
      .ok (entry ++ rest)

/-- `Extensions::serialize` as the spec words it: the body prefixed
by its 2-byte length, or the empty sequence when the body is empty. -/
def serializeSpecFn (c : Extensions) (whoami : Side) : Except Err (List Nat) := do
  let body ← serializeBody whoami c.exts
  if body.isEmpty then .ok [] else .ok (u16be (body.length % 65536) ++ body)

/-- The buffer built by the serialization fold is the initial buffer
followed by the spec-side body. -/
theorem serialize_foldl (whoami : Side) (exts : List Ext) (acc : List Nat) :
    (exts.foldlM (fun buf e =>
      if e.empty then Except.ok buf
      else do
        let v ← e.serialize whoami
        Except.ok (buf ++ u16be (e.type % 65536) ++ u16be (v.length % 65536) ++ v)) acc) =
    (do let body ← serializeBody whoami exts; Except.ok (acc ++ body)) := by
  induction exts generalizing acc with
  | nil => simp [serializeBody, List.foldlM, Bind.bind, Except.bind, Pure.pure, Except.pure]
  | cons e es ih =>
    simp only [Bind.bind, Except.bind] at ih
    rw [List.foldlM_cons]
    rw [serializeBody]
    split
    next hemp =>
      simp only [Bind.bind, Except.bind]
      rw [ih]
    next hemp =>
      cases hs : e.serialize whoami with
      | error err => simp [Bind.bind, Except.bind, hs, extEntry]
      | ok v =>
        simp only [Bind.bind, Except.bind, hs, extEntry]
        rw [ih]
        cases hb : serializeBody whoami es with
        | error err => simp [Bind.bind, Except.bind]
        | ok body => simp [Bind.bind, Except.bind]

/-- `Extensions::serialize` implements the spec-side description:
entries only for non-empty extensions, and an empty body yields the
empty byte sequence instead of a zero-length block. -/
theorem serialize_eq_spec (c : Extensions) (whoami : Side) :
    c.serialize whoami = serializeSpecFn c whoami := by
  unfold Extensions.serialize serializeSpecFn
  rw [serialize_foldl]
  cases hb : serializeBody whoami c.exts with
  | error e => simp [Bind.bind, Except.bind]
  | ok body =>
    simp only [Bind.bind, Except.bind]
    cases body with
    | nil => simp [u16be]
    | cons b bs => simp [u16be]

/-- The raw bytes of a list of framing triples. -/
def triplesBytes (ts : List (Nat × Nat × List Nat)) : List Nat :=
  ts.flatMap (fun t => u16be t.1 ++ u16be t.2.1 ++ t.2.2)

/-- Framing triples carry 16-bit codes and sizes, and each payload
has exactly its declared size. -/
theorem triplesOf_facts {b : List Nat} {ts : List (Nat × Nat × List Nat)}
    (h : TriplesOf b ts) :
    ∀ t ∈ ts, t.1 < 65536 ∧ t.2.1 < 65536 ∧ t.2.2.length = t.2.1 := by
  induction h with
  | nil =>
    intro t ht
    simp at ht
  | @cons b0 b1 b2 b3 rest ts1 hle htail ih =>
    intro t ht
    rcases List.mem_cons.mp ht with h1 | h1
    · subst h1
      have m0 : b0 % 256 < 256 := Nat.mod_lt _ (by omega)
      have m1 : b1 % 256 < 256 := Nat.mod_lt _ (by omega)
      have m2 : b2 % 256 < 256 := Nat.mod_lt _ (by omega)
      have m3 : b3 % 256 < 256 := Nat.mod_lt _ (by omega)
      refine ⟨?_, ?_, ?_⟩
      · show 256 * (b0 % 256) + b1 % 256 < 65536
        omega
      · show 256 * (b2 % 256) + b3 % 256 < 65536
        omega
      · show (List.take (256 * (b2 % 256) + b3 % 256) rest).length =
          256 * (b2 % 256) + b3 % 256
        simp only [List.length_take]
        omega
    · exact ih t h1

/-- A byte sequence of valid bytes equals the raw bytes of its
framing triples. -/
theorem triplesOf_bytes {b : List Nat} {ts : List (Nat × Nat × List Nat)}
    (h : TriplesOf b ts) :
    (∀ x ∈ b, x < 256) → b = triplesBytes ts := by
  induction h with
  | nil =>
    intro
    rfl
  | @cons b0 b1 b2 b3 rest ts hle htail ih =>
    intro hv
    have hb0 : b0 < 256 := hv b0 (by simp)
    have hb1 : b1 < 256 := hv b1 (by simp)
    have hb2 : b2 < 256 := hv b2 (by simp)
    have hb3 : b3 < 256 := hv b3 (by simp)
    have hc : u16be (256 * (b0 % 256) + b1 % 256) = [b0, b1] := by
      simp [u16be]
      constructor <;> omega
    have hs : u16be (256 * (b2 % 256) + b3 % 256) = [b2, b3] := by
      simp [u16be]
      constructor <;> omega
    have hrest : rest.drop (256 * (b2 % 256) + b3 % 256) =
        triplesBytes ts := by
      apply ih
      intro x hx
      exact hv x (by
        simp only [List.mem_cons]
        refine .inr (.inr (.inr (.inr (List.drop_subset _ _ hx)))))
    simp only [triplesBytes, List.flatMap_cons]
    rw [hc, hs]
    simp only [triplesBytes] at hrest
    rw [← hrest]
    simp

/-- Under the round-trip side conditions (each extension non-empty,
re-serializing to exactly its wire payload, with the declared code),
the spec-side body reproduces the raw triple bytes. -/
theorem serializeBody_of_triples {whoami : Side} {ts : List (Nat × Nat × List Nat)}
    {exts : List Ext}
    (hrel : List.Forall₂ (fun t e =>
      t.1 = e.type ∧ e.serialize whoami = .ok t.2.2 ∧ e.empty = false) ts exts) :
    (∀ t ∈ ts, t.1 < 65536 ∧ t.2.1 < 65536 ∧ t.2.2.length = t.2.1) →
    serializeBody whoami exts = .ok (triplesBytes ts) := by
  induction hrel with
  | nil =>
    intro
    rfl
  | @cons t e ts1 exts1 hP hrest ih =>
    intro hfacts
    obtain ⟨hcode, hser, hemp⟩ := hP
    rw [serializeBody]
    rw [if_neg (by simp [hemp])]
    unfold extEntry
    rw [hser]
    simp only [Bind.bind, Except.bind]
    rw [ih (fun t ht => hfacts t (List.mem_cons_of_mem _ ht))]
    obtain ⟨hc, hs, hlenp⟩ := hfacts t (List.mem_cons_self _ _)
    simp only [triplesBytes, List.flatMap_cons]
    rw [← hcode, Nat.mod_eq_of_lt hc, hlenp, Nat.mod_eq_of_lt hs]
    try simp

/-- A body over only-empty extensions is empty. -/
theorem serializeBody_all_empty {whoami : Side} {exts : List Ext}
    (h : ∀ e ∈ exts, e.empty = true) :
    serializeBody whoami exts = .ok [] := by
  induction exts with
  | nil => rfl
  | cons e es ih =>
    rw [serializeBody, if_pos (h e (List.mem_cons_self _ _))]
    exact ih (fun x hx => h x (List.mem_cons_of_mem _ hx))

/-- Modelled from the spec: `group_param_is_dh` lives in
`tls_algos.cpp`, which is not among the sources.  The spec classifies
every named group as either finite-field DH or elliptic-curve, and
the enumeration of `tls_algos.h` lists the FFDHE groups at codes
256-260; those are the DH groups. -/
def group_param_is_dh (g : Nat) : Bool := 256 ≤ g && g ≤ 260

/-- `Supported_Groups::ec_groups()`: the loop keeping groups for
which `group_param_is_dh` is false, in stored order. -/
def ec_groups (gs : List Nat) : List Nat :=
  gs.foldl (fun ec g => if group_param_is_dh g = false then ec ++ [g] else ec) []

/-- `Supported_Groups::dh_groups()`: the loop keeping groups for
which `group_param_is_dh` is true, in stored order. -/
def dh_groups (gs : List Nat) : List Nat :=
  gs.foldl (fun dh g => if group_param_is_dh g = true then dh ++ [g] else dh) []

theorem foldl_keep_eq_filter (p : Nat → Bool) (l : List Nat) (acc : List Nat) :
    l.foldl (fun acc g => if p g = true then acc ++ [g] else acc) acc =
      acc ++ l.filter p := by
  induction l generalizing acc with
  | nil => simp
  | cons x xs ih =>
    rw [List.foldl_cons, List.filter_cons]
    by_cases hx : p x = true
    · rw [if_pos hx, if_pos hx, ih]
      simp
    · rw [if_neg hx, if_neg hx, ih]

theorem ec_groups_eq_filter (gs : List Nat) :
    ec_groups gs = gs.filter (fun g => !(group_param_is_dh g)) := by
  unfold ec_groups
  have : (fun (ec : List Nat) (g : Nat) =>
      if group_param_is_dh g = false then ec ++ [g] else ec) =
      (fun (ec : List Nat) (g : Nat) =>
      if (!(group_param_is_dh g)) = true then ec ++ [g] else ec) := by
    funext ec g
    cases hg : group_param_is_dh g <;> simp
  rw [this, foldl_keep_eq_filter]
  simp

theorem dh_groups_eq_filter (gs : List Nat) :
    dh_groups gs = gs.filter (fun g => group_param_is_dh g) := by
  unfold dh_groups
  rw [foldl_keep_eq_filter]
  simp

/-- `Supported_Groups` stores the 16-bit group codes in wire order:
the parsed list is the big-endian chunking of the declared-length
slice of the input. -/
theorem sgParse_groups {rd rd' : Reader} {size : Nat} {gs : List Nat}
    (h : sgParse rd size = .ok (.supportedGroups gs, rd')) :
    ∃ l0 l1 rest, rd.data = l0 :: l1 :: rest ∧
      (256 * (l0 % 256) + l1 % 256) % 2 = 0 ∧
      (256 * (l0 % 256) + l1 % 256) + 2 = size ∧
      gs = u16sOf (rest.take (256 * (l0 % 256) + l1 % 256)) := by
  unfold sgParse at h
  cases h1 : rd.getU16 with
  | error e1 => rw [h1] at h; simp [Bind.bind, Except.bind] at h
  | ok nrd =>
    obtain ⟨len, rd1⟩ := nrd
    rw [h1] at h
    simp only [Bind.bind, Except.bind] at h
    split at h
    next => simp at h
    next hchk =>
      split at h
      next => simp at h
      next hodd =>
        cases h2 : rd1.getU16s (len / 2) with
        | error e2 => rw [h2] at h; simp [Bind.bind, Except.bind] at h
        | ok grd =>
          obtain ⟨gs1, rd2⟩ := grd
          rw [h2] at h
          simp [Bind.bind, Except.bind] at h
          obtain ⟨hgs, _⟩ := h
          obtain ⟨l0, l1, hdec, hval⟩ := Reader.getU16_ok_decomp h1
          obtain ⟨_, _, _, hchunk, _⟩ := Reader.getU16s_ok h2
          refine ⟨l0, l1, rd1.data, hdec, ?_, ?_, ?_⟩
          · rw [← hval]
            omega
          · rw [← hval]
            omega
          · rw [← hgs, hchunk, ← hval]
            congr 1
            congr 1
            omega

/-- The first recognized point format in a format list
(`UNCOMPRESSED = 0` or `ANSIX962_COMPRESSED_PRIME = 1`), if any. -/
def firstRecognized (fmts : List Nat) : Option Nat :=
  fmts.find? (fun f => f % 256 == 0 || f % 256 == 1)

/-- The `Supported_Point_Formats` scan sets the compressed-preference
flag from the first recognized format of the scanned slice, `false`
when none is recognized. -/
theorem spfLoop_flag {k : Nat} {rd rd' : Reader} {pc : Bool}
    (h : spfLoop k rd = .ok (pc, rd')) :
    pc = (firstRecognized (rd.data.take k)).elim false (fun f => f % 256 == 1) := by
  induction k generalizing rd with
  | zero =>
    simp [spfLoop] at h
    simp [firstRecognized, h.1.symm]
  | succ j ih =>
    rw [spfLoop] at h
    cases h1 : rd.getByte with
    | error e1 => rw [h1] at h; simp [Bind.bind, Except.bind] at h
    | ok frd =>
      obtain ⟨f, rd1⟩ := frd
      rw [h1] at h
      simp only [Bind.bind, Except.bind] at h
      obtain ⟨b, hdec, hvb⟩ := Reader.getByte_ok_decomp h1
      rw [hdec]
      rw [List.take_succ_cons]
      split at h
      next hf0 =>
        cases h2 : rd1.discardNext j with
        | error e2 => rw [h2] at h; simp [Bind.bind, Except.bind] at h
        | ok rd2 =>
          rw [h2] at h
          simp [Bind.bind, Except.bind] at h
          rw [firstRecognized, List.find?_cons_of_pos]
          · simp only [Option.elim]
            rw [h.1, ← hvb, hf0]
            rfl
          · subst hvb
            simp [hf0]
      next hf0 =>
        split at h
        next hf1 =>
          cases h2 : rd1.discardNext j with
          | error e2 => rw [h2] at h; simp [Bind.bind, Except.bind] at h
          | ok rd2 =>
            rw [h2] at h
            simp [Bind.bind, Except.bind] at h
            rw [firstRecognized, List.find?_cons_of_pos]
            · simp only [Option.elim]
              rw [h.1, ← hvb, hf1]
              rfl
            · subst hvb
              simp [hf1]
        next hf1 =>
          rw [firstRecognized, List.find?_cons_of_neg]
          · exact ih h
          · subst hvb
            simp
            omega

/-- Mapping `uint8_t` reduction over genuine bytes is the identity. -/
theorem map_mod_id {l : List Nat} (hv : ∀ x ∈ l, x < 256) :
    l.map (· % 256) = l := by
  induction l with
  | nil => rfl
  | cons x xs ih =>
    simp only [List.map_cons]
    rw [Nat.mod_eq_of_lt (hv x (by simp)), ih (fun y hy => hv y (by simp [hy]))]

/-- A client-form SNI body whose first name entry has an unrecognized
type byte parses successfully with no host name, skipping the bytes
after the type byte. -/
theorem sniParse_skip (nb t size : Nat) (rest : List Nat)
    (ht : t % 256 ≠ 0) (h1 : 1 ≤ nb) (h2 : nb < 65536) (h3 : nb - 1 ≤ rest.length)
    (hsz : nb + 2 = size) :
    sniParse ⟨u16be nb ++ t :: rest⟩ size = .ok (.serverName [], ⟨rest.drop (nb - 1)⟩) := by
  unfold sniParse
  rw [if_neg (by omega)]
  have hg : Reader.getU16 ⟨u16be nb ++ t :: rest⟩ = .ok (nb, ⟨t :: rest⟩) := by
    simp [Reader.getU16, u16be]
    omega
  rw [hg]
  simp only [Bind.bind, Except.bind]
  rw [if_neg (by omega)]
  have hfuel : (⟨t :: rest⟩ : Reader).remaining + 1 = (rest.length + 1) + 1 := by
    simp [Reader.remaining]
  rw [hfuel]
  rw [sniLoop]
  rw [if_neg (by omega)]
  have hb : Reader.getByte ⟨t :: rest⟩ = .ok (t % 256, ⟨rest⟩) := rfl
  rw [hb]
  simp only [Bind.bind, Except.bind]
  rw [if_neg ht]
  have hd : Reader.discardNext ⟨rest⟩ (nb - 1) = .ok ⟨rest.drop (nb - 1)⟩ := by
    unfold Reader.discardNext
    rw [if_pos (by simpa using h3)]
  rw [hd]
  simp only [Bind.bind, Except.bind]
  rw [sniLoop]
  rw [if_pos rfl]

/-- A canonical client-form SNI body with a single DNS entry parses
to exactly that host name. -/
theorem sniParse_single (name : List Nat) (size : Nat)
    (hv : ∀ x ∈ name, x < 256) (hmin : 1 ≤ name.length) (hmax : name.length ≤ 65532)
    (hsz : name.length + 5 = size) :
    sniParse ⟨u16be (name.length + 3) ++ 0 :: (u16be name.length ++ name)⟩ size =
      .ok (.serverName name, ⟨[]⟩) := by
  unfold sniParse
  rw [if_neg (by omega)]
  have hg : Reader.getU16 ⟨u16be (name.length + 3) ++ 0 :: (u16be name.length ++ name)⟩ =
      .ok (name.length + 3, ⟨0 :: (u16be name.length ++ name)⟩) := by
    simp [Reader.getU16, u16be]
    omega
  rw [hg]
  simp only [Bind.bind, Except.bind]
  rw [if_neg (by omega)]
  have hfuel : (⟨0 :: (u16be name.length ++ name)⟩ : Reader).remaining + 1 =
      (name.length + 3) + 1 := by
    simp [Reader.remaining, u16be]
  rw [hfuel]
  rw [sniLoop]
  rw [if_neg (by omega)]
  have hb : Reader.getByte ⟨0 :: (u16be name.length ++ name)⟩ =
      .ok (0, ⟨u16be name.length ++ name⟩) := rfl
  rw [hb]
  simp only [Bind.bind, Except.bind]
  rw [if_pos trivial]
  have hs : Reader.getString ⟨u16be name.length ++ name⟩ 2 1 65535 =
      .ok (name, ⟨[]⟩) := by
    unfold Reader.getString Reader.getRangeU8 Reader.getNumElems Reader.getLengthField
    have hg2 : Reader.getU16 ⟨u16be name.length ++ name⟩ = .ok (name.length, ⟨name⟩) := by
      simp [Reader.getU16, u16be]
      omega
    rw [if_neg (by omega), if_pos rfl, hg2]
    simp only [Bind.bind, Except.bind]
    rw [if_neg (by omega)]
    rw [if_neg (by
      simp
      exact ⟨fun h => by subst h; simp at hmin, by omega⟩)]
    simp only [Nat.div_one]
    unfold Reader.getFixed
    rw [if_pos (by simp)]
    show Except.ok ((name.take name.length).map (· % 256),
      (⟨name.drop name.length⟩ : Reader)) = _
    rw [List.take_length, List.drop_length, map_mod_id hv]
  rw [hs]
  simp only [Bind.bind, Except.bind]
  have hsucc : name.length + 3 = (name.length + 2) + 1 := rfl
  rw [hsucc, sniLoop]
  rw [if_pos (by
    have : (2 + name.length) % 65536 = 2 + name.length := by omega
    omega)]

/-- `extension_types` is duplicate-free for every container (it is a
`std::set` of the codes). -/
theorem extensionTypes_nodup (c : Extensions) : c.extensionTypes.Nodup := by
  unfold Extensions.extensionTypes
  exact ((List.perm_insertionSort _ _).nodup_iff).mpr (List.nodup_dedup _)

/-- `Extensions::add` preserves duplicate-freeness of the carried
codes. -/
theorem add_nodup {c c' : Extensions} {e : Ext}
    (hnd : (c.exts.map Ext.type).Nodup) (h : c.add e = .ok c') :
    (c'.exts.map Ext.type).Nodup := by
  unfold Extensions.add at h
  split at h
  next => simp at h
  next hh =>
    simp at h
    rw [← h]
    simp only [List.map_append, List.map_cons, List.map_nil]
    rw [List.nodup_append]
    refine ⟨hnd, List.nodup_singleton _, ?_⟩
    intro x hx hx1
    simp at hx1
    subst hx1
    apply hh
    exact Extensions.has_iff.mpr (by
      obtain ⟨y, hy, hyt⟩ := List.mem_map.mp hx
      exact ⟨y, hy, hyt⟩)

/-- `Extensions::deserialize` preserves duplicate-freeness of the
carried codes. -/
theorem deserialize_nodup {c c' : Extensions} {rd rd' : Reader} {sd : Side} {mt : HsType}
    (hnd : (c.exts.map Ext.type).Nodup)
    (h : c.deserialize rd sd mt = .ok (c', rd')) :
    (c'.exts.map Ext.type).Nodup := by
  unfold Extensions.deserialize at h
  split at h
  next hrem =>
    cases h1 : rd.getU16 with
    | error e1 => rw [h1] at h; simp [Bind.bind, Except.bind] at h
    | ok srd =>
      obtain ⟨allExtnSize, rd1⟩ := srd
      rw [h1] at h
      simp only [Bind.bind, Except.bind] at h
      split at h
      next => simp at h
      next hchk =>
        obtain ⟨_, _, hsz⟩ := Reader.getU16_ok h1
        simp [Reader.remaining] at hchk
        exact Extensions.deserCore_nodup (by omega) hnd h
  next =>
    simp at h
    obtain ⟨hc, _⟩ := h
    subst hc
    exact hnd

/-- The containers reachable through the public construction
surface: the empty container, successful `add`s, and successful
`deserialize`s. -/
inductive Reachable : Extensions → Prop
  | empty : Reachable ⟨[]⟩
  | addStep {c c' : Extensions} {e : Ext} :
      Reachable c → c.add e = .ok c' → Reachable c'
  | deserializeStep {c c' : Extensions} {rd rd' : Reader} {sd : Side} {mt : HsType} :
      Reachable c → c.deserialize rd sd mt = .ok (c', rd') → Reachable c'

/-- A server-side ALPN extension of non-zero declared size parses
only with exactly one protocol name. -/
theorem alpnParse_server_arity {rd rd' : Reader} {size : Nat} {e : Ext}
    (hsz : size ≠ 0) (h : alpnParse rd size .server = .ok (e, rd')) :
    ∃ ps, e = .alpn ps ∧ ps.length = 1 := by
  unfold alpnParse at h
  rw [if_neg hsz] at h
  rw [bind_ok_iff] at h
  obtain ⟨⟨nb, rd1⟩, _, h⟩ := h
  simp only [] at h
  split at h
  next => simp at h
  next =>
    rw [bind_ok_iff] at h
    obtain ⟨⟨ps, rd2⟩, _, h⟩ := h
    simp only [] at h
    split at h
    next => simp at h
    next hcond =>
      simp at h
      refine ⟨ps, h.1.symm, ?_⟩
      by_contra hne
      exact hcond ⟨trivial, hne⟩

/-! ## Claims -/

/-- C1, counterexample: the byte block `00 07 00 0b 00 03 02 02 00`
(a single `ec_point_formats` extension whose list is `[CHAR2,
UNCOMPRESSED]`) parses successfully, contains no empty-payload
extension, yet re-serializes to the canonicalized block
`00 06 00 0b 00 02 01 00`, which is neither the input nor the empty
sequence.  This refutes serialize-after-parse byte-exactness as
stated. -/
theorem claim_C1_counterexample :
    Extensions.deserialize ⟨[]⟩ ⟨[0, 7, 0, 11, 0, 3, 2, 2, 0]⟩ .client .clientHello =
      .ok (⟨[.pointFormats false]⟩, ⟨[]⟩) ∧
    Extensions.serialize ⟨[.pointFormats false]⟩ .client = .ok [0, 6, 0, 11, 0, 2, 1, 0] ∧
    ([0, 6, 0, 11, 0, 2, 1, 0] : List Nat) ≠ [0, 7, 0, 11, 0, 3, 2, 2, 0] ∧
    ([0, 6, 0, 11, 0, 2, 1, 0] : List Nat) ≠ [] ∧
    (⟨[.pointFormats false]⟩ : Extensions).exts.all (fun e => !e.empty) = true := by
  refine ⟨rfl, rfl, by decide, by decide, rfl⟩

/-- C1 (amended): serialize-after-parse returns exactly the input
block whenever the block frames at least one extension and every
parsed extension is non-empty and re-serializes to exactly its wire
payload with its wire code; and a container whose extensions are all
empty-payload serializes to the empty byte sequence (they are elided,
so in particular such a block does not round-trip to itself). -/
theorem claim_C1_roundtrip :
    (∀ (b : List Nat) (ts : List (Nat × Nat × List Nat)) (c : Extensions)
        (rdEnd : Reader) (sd sd2 : Side) (mt : HsType),
      (∀ x ∈ b, x < 256) →
      Extensions.deserialize ⟨[]⟩ ⟨b⟩ sd mt = .ok (c, rdEnd) →
      parseTriples b = .ok ts →
      ts ≠ [] →
      List.Forall₂ (fun t e =>
        t.1 = e.type ∧ e.serialize sd2 = .ok t.2.2 ∧ e.empty = false) ts c.exts →
      c.serialize sd2 = .ok b) ∧
    (∀ (c : Extensions) (sd : Side),
      (∀ e ∈ c.exts, e.empty = true) → c.serialize sd = .ok []) := by
  constructor
  · intro b ts c rdEnd sd sd2 mt hv hparse htr hne hrel
    rcases parseTriples_toRel htr with ⟨hb, hts⟩ | ⟨b0, b1, rest, hb, hlen, htrip⟩
    · exact absurd hts hne
    · subst hb
      have hfacts := triplesOf_facts htrip
      have hbody := serializeBody_of_triples hrel hfacts
      have hbytes : rest = triplesBytes ts :=
        triplesOf_bytes htrip (fun x hx => hv x (by simp [hx]))
      have hrestne : rest ≠ [] := by
        cases htrip with
        | nil => exact absurd rfl hne
        | cons _ _ => simp
      rw [serialize_eq_spec]
      unfold serializeSpecFn
      rw [hbody]
      simp only [Bind.bind, Except.bind]
      rw [if_neg (by rw [← hbytes]; simpa using hrestne)]
      rw [← hbytes]
      have hb0 : b0 < 256 := hv b0 (by simp)
      have hb1 : b1 < 256 := hv b1 (by simp)
      have hm0 : b0 % 256 < 256 := Nat.mod_lt _ (by omega)
      have hm1 : b1 % 256 < 256 := Nat.mod_lt _ (by omega)
      have hlt : rest.length < 65536 := by omega
      rw [Nat.mod_eq_of_lt hlt]
      have e0 : rest.length / 256 % 256 = b0 := by omega
      have e1 : rest.length % 256 = b1 := by omega
      show Except.ok ([rest.length / 256 % 256, rest.length % 256] ++ rest) = _
      rw [e0, e1]
      rfl
  · intro c sd hall
    rw [serialize_eq_spec]
    unfold serializeSpecFn
    rw [serializeBody_all_empty hall]
    rfl

theorem claim_C1_roundtrip_witness :
    Extensions.serialize ⟨[.serverName [101, 120]]⟩ .client =
      .ok [0, 11, 0, 0, 0, 7, 0, 5, 0, 0, 2, 101, 120] :=
  claim_C1_roundtrip.1 [0, 11, 0, 0, 0, 7, 0, 5, 0, 0, 2, 101, 120]
    [(0, 7, [0, 5, 0, 0, 2, 101, 120])] ⟨[.serverName [101, 120]]⟩ ⟨[]⟩
    .client .client .clientHello
    (by decide) rfl rfl (by decide)
    (List.Forall₂.cons ⟨rfl, rfl, rfl⟩ List.Forall₂.nil)

/-- C2: any wire extensions block whose framing carries two
extensions with the same 16-bit code fails to deserialize, with a
decode-kind error (a `Decoding_Error` or a fatal `DECODE_ERROR`
alert), regardless of the payloads. -/
theorem claim_C2_duplicate_rejected (b : List Nat) (ts : List (Nat × Nat × List Nat))
    (sd : Side) (mt : HsType)
    (htr : parseTriples b = .ok ts)
    (hdup : ¬ (ts.map (fun t => t.1)).Nodup) :
    ∃ e, Extensions.deserialize ⟨[]⟩ ⟨b⟩ sd mt = .error e ∧ e.isDecodeError = true := by
  rcases parseTriples_toRel htr with ⟨hb, hts⟩ | ⟨b0, b1, rest, hb, hlen, htrip⟩
  · subst hts
    simp at hdup
  · subst hb
    unfold Extensions.deserialize
    rw [if_pos (by simp [Reader.hasRemaining])]
    have hg : Reader.getU16 ⟨b0 :: b1 :: rest⟩ =
        .ok (256 * (b0 % 256) + b1 % 256, ⟨rest⟩) := rfl
    rw [hg]
    simp only [Bind.bind, Except.bind]
    rw [if_neg (by simp [Reader.remaining]; omega)]
    have hm0 : b0 % 256 < 256 := Nat.mod_lt _ (by omega)
    have hm1 : b1 % 256 < 256 := Nat.mod_lt _ (by omega)
    cases hres : Extensions.deserCore ((⟨rest⟩ : Reader).remaining + 1) ⟨[]⟩ ⟨rest⟩ sd mt with
    | error e =>
      refine ⟨e, rfl, Extensions.deserCore_err ?_ ?_ hres⟩
      · simp [Reader.remaining]
      · show rest.length < 65536
        omega
    | ok res =>
      obtain ⟨c', rdx⟩ := res
      exact absurd (Extensions.deserCore_triples
        (show rest.length < 65536 by omega) hres htrip).1 hdup

theorem claim_C2_duplicate_rejected_witness :
    ∃ e, Extensions.deserialize ⟨[]⟩ ⟨[0, 8, 0, 35, 0, 0, 0, 35, 0, 0]⟩ .client .clientHello =
      .error e ∧ e.isDecodeError = true :=
  claim_C2_duplicate_rejected [0, 8, 0, 35, 0, 0, 0, 35, 0, 0]
    [(35, 0, []), (35, 0, [])] .client .clientHello rfl (by decide)

/-- C3: an extension code outside the known registry parses to an
`Unknown_Extension` carrier holding exactly the declared-size bytes,
and serializing that carrier fails with `Invalid_State`. -/
theorem claim_C3_unknown_extension (rd : Reader) (code size : Nat) (sd : Side) (mt : HsType)
    (hknown : code ∉ ([0, 10, 5, 11, 65281, 13, 14, 16, 23, 22, 35, 43] : List Nat))
    (hsz : size ≤ rd.data.length) (hv : ∀ x ∈ rd.data, x < 256) :
    makeExtension rd code size sd mt =
      .ok (.unknown code (rd.data.take size), ⟨rd.data.drop size⟩) ∧
    (Ext.unknown code (rd.data.take size)).serialize sd =
      .error (.invalidState "Cannot encode an unknown TLS extension") := by
  refine ⟨?_, rfl⟩
  simp only [List.mem_cons, List.mem_singleton] at hknown
  push_neg at hknown
  obtain ⟨n0, n10, n5, n11, n65281, n13, n14, n16, n23, n22, n35, n43, -⟩ := hknown
  unfold makeExtension
  rw [if_neg n0, if_neg n10, if_neg n5, if_neg n11, if_neg n65281, if_neg n13,
    if_neg n14, if_neg n16, if_neg n23, if_neg n22, if_neg n35, if_neg n43]
  unfold unknownParse Reader.getFixed
  rw [if_pos hsz]
  simp only [Bind.bind, Except.bind]
  rw [map_mod_id (fun x hx => hv x (List.take_subset _ _ hx))]

theorem claim_C3_unknown_extension_witness :
    makeExtension ⟨[222, 173, 190, 239, 9]⟩ 65450 4 .client .clientHello =
      .ok (.unknown 65450 [222, 173, 190, 239], ⟨[9]⟩) ∧
    (Ext.unknown 65450 [222, 173, 190, 239]).serialize .client =
      .error (.invalidState "Cannot encode an unknown TLS extension") := by
  have h := claim_C3_unknown_extension ⟨[222, 173, 190, 239, 9]⟩ 65450 4 .client
    .clientHello (by decide) (by decide) (by decide)
  simpa using h

/-- C4: every container reachable through `add` and `deserialize`
carries each code at most once (and `extension_types()` is
duplicate-free), and `add` of a present code fails with
`Invalid_Argument` (the container value is returned unchanged in the
functional model: the error carries no modified container). -/
theorem claim_C4_uniqueness (c : Extensions) (hc : Reachable c) :
    (c.exts.map Ext.type).Nodup ∧ c.extensionTypes.Nodup ∧
      ∀ (d : Extensions) (e : Ext), d.has e.type = true →
        d.add e = .error (.invalidArgument "cannot add the same extension twice") := by
  refine ⟨?_, extensionTypes_nodup c, ?_⟩
  · induction hc with
    | empty => simp
    | addStep hr hadd ih => exact add_nodup ih hadd
    | deserializeStep hr hdes ih => exact deserialize_nodup ih hdes
  · intro d e hhas
    unfold Extensions.add
    rw [if_pos hhas]

theorem claim_C4_uniqueness_witness :
    ((⟨[.sessionTicket [1]]⟩ : Extensions).exts.map Ext.type).Nodup ∧
    (⟨[.sessionTicket [1]]⟩ : Extensions).extensionTypes.Nodup ∧
    ∀ (d : Extensions) (e : Ext), d.has e.type = true →
      d.add e = .error (.invalidArgument "cannot add the same extension twice") :=
  claim_C4_uniqueness ⟨[.sessionTicket [1]]⟩ (Reachable.addStep Reachable.empty rfl)

/-- C5, counterexample: a server-origin ALPN extension with declared
size 0 parses successfully carrying zero protocol names (the
constructor returns before the server-arity check), refuting "fails
whenever the protocol count is not exactly one". -/
theorem claim_C5_counterexample :
    alpnParse ⟨[]⟩ 0 .server = .ok (.alpn [], ⟨[]⟩) ∧
    ([] : List (List Nat)).length ≠ 1 := ⟨rfl, by decide⟩

/-- C5 (amended): for non-zero declared size, a server-origin ALPN
extension parses only with exactly one protocol name, and every
failure is decode-kind. -/
theorem claim_C5_server_arity (rd : Reader) (size : Nat) (hsz : size ≠ 0) :
    (∀ (e : Ext) (rd' : Reader), alpnParse rd size .server = .ok (e, rd') →
      ∃ ps, e = .alpn ps ∧ ps.length = 1) ∧
    (∀ err : Err, alpnParse rd size .server = .error err → err.isDecodeError = true) :=
  ⟨fun _ _ h => alpnParse_server_arity hsz h, fun _ h => alpnParse_err h⟩

theorem claim_C5_server_arity_witness :
    (∀ (e : Ext) (rd' : Reader), alpnParse ⟨[0, 2, 1, 97]⟩ 4 .server = .ok (e, rd') →
      ∃ ps, e = .alpn ps ∧ ps.length = 1) ∧
    (∀ err : Err, alpnParse ⟨[0, 2, 1, 97]⟩ 4 .server = .error err →
      err.isDecodeError = true) :=
  claim_C5_server_arity ⟨[0, 2, 1, 97]⟩ 4 (by decide)

/-- C6: `Extensions::serialize` writes a `(code, payload_len,
payload)` triple exactly for the non-empty extensions, in container
order, and returns the empty byte sequence instead of a block whose
2-byte length prefix is 0 when the body is empty: it equals the
spec-side description `serializeSpecFn`. -/
theorem claim_C6_serialize_structure (c : Extensions) (whoami : Side) :
    c.serialize whoami = serializeSpecFn c whoami :=
  serialize_eq_spec c whoami

/-- C7, counterexample: the format list `[ANSIX962_COMPRESSED_PRIME]`
(wire bytes `01 01`, declared size 2) parses successfully with the
compressed-preference flag set, although the uncompressed format (0)
does not appear in the declared list. -/
theorem claim_C7_counterexample :
    spfParse ⟨[1, 1]⟩ 2 = .ok (.pointFormats true, ⟨[]⟩) ∧
    (0 : Nat) ∉ ([1] : List Nat) := ⟨rfl, by decide⟩

/-- C7 (amended): for every successfully parsed
`Supported_Point_Formats` extension, the first recognized format of
the declared list determines the compressed-preference flag (`false`
when none is recognized); the uncompressed format need not appear on
input, but every serialized list contains it. -/
theorem claim_C7_point_formats :
    (∀ (rd rd' : Reader) (size : Nat) (pc : Bool),
      spfParse rd size = .ok (.pointFormats pc, rd') →
      ∃ l0 tail, rd.data = l0 :: tail ∧ l0 % 256 + 1 = size ∧ l0 % 256 ≤ tail.length ∧
        pc = (firstRecognized (tail.take (l0 % 256))).elim false (fun f => f % 256 == 1)) ∧
    (∀ (pc : Bool) (sd : Side), ∃ l, (Ext.pointFormats pc).serialize sd = .ok l ∧ 0 ∈ l) := by
  constructor
  · intro rd rd' size pc h
    unfold spfParse at h
    cases h1 : rd.getByte with
    | error e1 => rw [h1] at h; simp [Bind.bind, Except.bind] at h
    | ok lrd =>
      obtain ⟨len, rd1⟩ := lrd
      rw [h1] at h
      simp only [Bind.bind, Except.bind] at h
      obtain ⟨b, hdec, hvb⟩ := Reader.getByte_ok_decomp h1
      split at h
      next => simp at h
      next hchk =>
        cases h2 : spfLoop len rd1 with
        | error e2 => rw [h2] at h; simp [Bind.bind, Except.bind] at h
        | ok prd =>
          obtain ⟨pc1, rd2⟩ := prd
          rw [h2] at h
          simp [Bind.bind, Except.bind] at h
          obtain ⟨hpc, _⟩ := h
          obtain ⟨hd2, hl2⟩ := spfLoop_ok h2
          have hflag := spfLoop_flag h2
          simp at hchk
          refine ⟨b, rd1.data, hdec, by omega, by omega, ?_⟩
          rw [← hvb, ← hpc]
          exact hflag
  · intro pc sd
    cases pc
    · exact ⟨[1, 0], rfl, by decide⟩
    · exact ⟨[2, 1, 0], rfl, by decide⟩

theorem claim_C7_point_formats_witness :
    (∃ l0 tail, ((⟨[2, 0, 1]⟩ : Reader)).data = l0 :: tail ∧ l0 % 256 + 1 = 3 ∧
      l0 % 256 ≤ tail.length ∧
      false = (firstRecognized (tail.take (l0 % 256))).elim false (fun f => f % 256 == 1)) ∧
    (∃ l, (Ext.pointFormats true).serialize .client = .ok l ∧ 0 ∈ l) :=
  ⟨claim_C7_point_formats.1 ⟨[2, 0, 1]⟩ ⟨[]⟩ 3 false rfl,
   claim_C7_point_formats.2 true .client⟩

/-- C8, counterexample: a client-form SNI body with zero host names
(single unrecognized name type 7) parses successfully, as does one
carrying two DNS names (the second overwrites the first), refuting
"succeeds only if the body carries exactly one host name". -/
theorem claim_C8_counterexample :
    sniParse ⟨[0, 1, 7]⟩ 3 = .ok (.serverName [], ⟨[]⟩) ∧
    sniParse ⟨[0, 8, 0, 0, 1, 97, 0, 0, 1, 98]⟩ 10 = .ok (.serverName [98], ⟨[]⟩) :=
  ⟨rfl, rfl⟩

/-- C8 (amended): declared length 0 parses as the server-acknowledge
form with no host name; in the client form an unrecognized leading
name type causes the remaining bytes to be skipped and parsing to
succeed with no host name, while a canonical single-DNS-entry body
parses to exactly that host name — exactly one host name is not
required. -/
theorem claim_C8_server_name :
    (∀ rd : Reader, sniParse rd 0 = .ok (.serverName [], rd)) ∧
    (∀ (nb t size : Nat) (rest : List Nat), t % 256 ≠ 0 → 1 ≤ nb → nb < 65536 →
      nb - 1 ≤ rest.length → nb + 2 = size →
      sniParse ⟨u16be nb ++ t :: rest⟩ size = .ok (.serverName [], ⟨rest.drop (nb - 1)⟩)) ∧
    (∀ (name : List Nat) (size : Nat), (∀ x ∈ name, x < 256) → 1 ≤ name.length →
      name.length ≤ 65532 → name.length + 5 = size →
      sniParse ⟨u16be (name.length + 3) ++ 0 :: (u16be name.length ++ name)⟩ size =
        .ok (.serverName name, ⟨[]⟩)) :=
  ⟨fun _ => rfl, sniParse_skip, sniParse_single⟩

theorem claim_C8_server_name_witness :
    sniParse ⟨[]⟩ 0 = .ok (.serverName [], ⟨[]⟩) ∧
    sniParse ⟨u16be 2 ++ 7 :: [9]⟩ 4 = .ok (.serverName [], ⟨[9].drop 1⟩) ∧
    sniParse ⟨u16be ([97].length + 3) ++ 0 :: (u16be [97].length ++ [97])⟩ 6 =
      .ok (.serverName [97], ⟨[]⟩) :=
  ⟨claim_C8_server_name.1 ⟨[]⟩,
   claim_C8_server_name.2.1 2 7 4 [9] (by decide) (by decide) (by decide) (by decide) (by decide),
   claim_C8_server_name.2.2 [97] 6 (by decide) (by decide) (by decide) (by decide)⟩

/-- C9: `Supported_Groups` stores the parsed 16-bit codes in wire
order, `ec_groups` keeps exactly the non-DH codes and `dh_groups`
exactly the DH codes, each in stored order, and together they
partition the stored list. -/
theorem claim_C9_supported_groups :
    (∀ (rd rd' : Reader) (size : Nat) (gs : List Nat),
      sgParse rd size = .ok (.supportedGroups gs, rd') →
      ∃ l0 l1 rest, rd.data = l0 :: l1 :: rest ∧
        gs = u16sOf (rest.take (256 * (l0 % 256) + l1 % 256))) ∧
    (∀ gs : List Nat,
      ec_groups gs = gs.filter (fun g => !(group_param_is_dh g)) ∧
      dh_groups gs = gs.filter (fun g => group_param_is_dh g) ∧
      (ec_groups gs ++ dh_groups gs).Perm gs) := by
  constructor
  · intro rd rd' size gs h
    obtain ⟨l0, l1, rest, hd, _, _, hgs⟩ := sgParse_groups h
    exact ⟨l0, l1, rest, hd, hgs⟩
  · intro gs
    refine ⟨ec_groups_eq_filter gs, dh_groups_eq_filter gs, ?_⟩
    rw [ec_groups_eq_filter, dh_groups_eq_filter]
    have hp := List.filter_append_perm (fun g => !(group_param_is_dh g)) gs
    simpa [Bool.not_not] using hp

theorem claim_C9_supported_groups_witness :
    (∃ l0 l1 rest, ((⟨[0, 4, 0, 23, 1, 0]⟩ : Reader)).data = l0 :: l1 :: rest ∧
      [23, 256] = u16sOf (rest.take (256 * (l0 % 256) + l1 % 256))) ∧
    (ec_groups [23, 256] = [23, 256].filter (fun g => !(group_param_is_dh g)) ∧
      dh_groups [23, 256] = [23, 256].filter (fun g => group_param_is_dh g) ∧
      (ec_groups [23, 256] ++ dh_groups [23, 256]).Perm [23, 256]) :=
  ⟨claim_C9_supported_groups.1 ⟨[0, 4, 0, 23, 1, 0]⟩ ⟨[]⟩ 6 [23, 256] rfl,
   claim_C9_supported_groups.2 [23, 256]⟩

/-- C10: deserializing from a reader with no remaining bytes
succeeds without reading the 2-byte total-size prefix and yields a
container with zero extensions (more generally, it returns the
receiver container unchanged). -/
theorem claim_C10_empty_reader :
    (∀ (sd : Side) (mt : HsType),
      Extensions.deserialize ⟨[]⟩ ⟨[]⟩ sd mt = .ok (⟨[]⟩, ⟨[]⟩)) ∧
    (∀ (c : Extensions) (sd : Side) (mt : HsType),
      c.deserialize ⟨[]⟩ sd mt = .ok (c, ⟨[]⟩)) :=
  ⟨fun _ _ => rfl, fun _ _ _ => rfl⟩

end BotanTLS
